import Mathlib

/-!
Verification of the aggregation / session-detection engine of the
ccusage-overlay repository (src/shared/data-loader.ts,
src/renderer/src/views/ExpandedView.tsx, src/main/services/session-calculator.ts,
src/main/services/data-service.ts).

Modelling conventions for the shallow embedding:

* ISO-8601 timestamp strings are modelled by their epoch value in
  milliseconds, as an `Int`.  The code relies on zero-padded ISO form, so
  lexical string comparison coincides with numeric comparison on the epoch
  value; every string comparison of timestamps / hour keys / date strings in
  the source is therefore rendered as `Int` comparison.
* `formatDate` produces the local `YYYY-MM-DD` string of a timestamp; it is
  modelled as the calendar-day index (floor of the epoch value by one day).
  The local timezone is taken as UTC with no DST, so day and hour boundaries
  are exact multiples of the constants below.
* JavaScript floating point amounts (`costUSD`) are modelled as exact
  rationals `ℚ`; token counts as `Int`.
* A JavaScript `Map` iterates in key-insertion order and `set` on an existing
  key updates in place; `groupByKey` below reproduces exactly that.
* `Array.prototype.sort` is a stable sort (ES2019); a stable sort is
  extensionally determined by the comparator and the input order, so it is
  modelled by `List.insertionSort` with the comparator's non-strict relation.
-/

/-- Milliseconds in one hour. -/
def msPerHour : Int := 3600000

/-- Milliseconds in one day. -/
def msPerDay : Int := 86400000

/-- `setMinutes(0, 0, 0)` on a date: truncate an epoch-ms value down to the
start of its hour. -/
def hourStart (t : Int) : Int := msPerHour * Int.fdiv t msPerHour

/-- Start of the calendar day containing `t` (used for `setHours(0,0,0,0)`). -/
def dayStart (t : Int) : Int := msPerDay * Int.fdiv t msPerDay

/-- Millisecond offset of `t` within its calendar day. -/
def msOfDay (t : Int) : Int := Int.emod t msPerDay

/-- `formatDate` of data-loader.ts: the local `YYYY-MM-DD` date string of a
timestamp, modelled as the calendar-day index `floor(t / 86400000)`.
Lexical order on the zero-padded date strings is numeric order on the index. -/
def formatDate (t : Int) : Int := Int.fdiv t msPerDay

/-- `getHours()`-style hour-of-day, used to model the `HH:00` hour label. -/
def hourLabelOf (t : Int) : Int := Int.emod (Int.fdiv t msPerHour) 24

/-- Gregorian calendar year of an epoch-ms instant (`Date.getFullYear`),
via the standard civil-from-days algorithm. -/
def yearOf (t : Int) : Int :=
  let z := Int.fdiv t msPerDay + 719468
  let era := Int.fdiv z 146097
  let doe := z - era * 146097
  let yoe := Int.fdiv (doe - Int.fdiv doe 1460 + Int.fdiv doe 36524 - Int.fdiv doe 146096) 365
  let y := yoe + era * 400
  let doy := doe - (365 * yoe + Int.fdiv yoe 4 - Int.fdiv yoe 100)
  let mp := Int.fdiv (5 * doy + 2) 153
  let m := if mp < 10 then mp + 3 else mp - 9
  if m ≤ 2 then y + 1 else y

/-- `entry.message.usage` of a parsed usage event.  Fields that may be absent
in the raw record are folded to 0 by the `|| 0` guards in the source, so they
are modelled as always-present integers. -/
structure TokenUsage where
  input_tokens : Int
  output_tokens : Int
  cache_creation_input_tokens : Int
  cache_read_input_tokens : Int
deriving DecidableEq

/-- `UsageEntry` of shared/types.ts: one validated usage event. -/
structure UsageEntry where
  timestamp : Int
  usage : TokenUsage
  costUSD : ℚ
  project : String
  session : String
deriving DecidableEq

/-- The summed token fields shared by all summary shapes. -/
structure TokenTotals where
  inputTokens : Int
  outputTokens : Int
  cacheCreationTokens : Int
  cacheReadTokens : Int
deriving DecidableEq

/-- The zero token accumulator every aggregation loop starts from. -/
def zeroTokens : TokenTotals := ⟨0, 0, 0, 0⟩

/-- One step of the token-summing loops
(`tokens.inputTokens += entry.message.usage.input_tokens || 0`, etc.). -/
def addEntryTokens (t : TokenTotals) (e : UsageEntry) : TokenTotals :=
  ⟨t.inputTokens + e.usage.input_tokens,
   t.outputTokens + e.usage.output_tokens,
   t.cacheCreationTokens + e.usage.cache_creation_input_tokens,
   t.cacheReadTokens + e.usage.cache_read_input_tokens⟩

/-- Token totals of a list of entries, as computed by the aggregation loops. -/
def sumTokens (l : List UsageEntry) : TokenTotals := l.foldl addEntryTokens zeroTokens

/-- Cost total of a list of entries (`cost += entry.costUSD`). -/
def sumCost (l : List UsageEntry) : ℚ := l.foldl (fun c e => c + e.costUSD) 0

/-- `DailySummary` of shared/types.ts.  `percentChange` is absent until the
percent-change pass sets it, hence an `Option`. -/
structure DailySummary where
  date : Int
  tokens : TokenTotals
  cost : ℚ
  entryCount : Nat
  percentChange : Option ℚ := none
deriving DecidableEq

/-- `SessionSummary` of shared/types.ts (per project/session bucketing). -/
structure SessionSummary where
  project : String
  session : String
  tokens : TokenTotals
  cost : ℚ
  startTime : Int
  endTime : Int
  entryCount : Nat
deriving DecidableEq

/-- `ProjectSummary` of shared/types.ts. -/
structure ProjectSummary where
  project : String
  tokens : TokenTotals
  cost : ℚ
  percentage : ℚ
  sessions : Nat
deriving DecidableEq

/-- `HourlySummary` of shared/types.ts.  The ISO hour key is the epoch value
of the hour start; the human-readable label is modelled by the hour of day. -/
structure HourlySummary where
  hour : Int
  hourLabel : Int
  tokens : TokenTotals
  cost : ℚ
  entryCount : Nat
deriving DecidableEq

/-- Insertion of one element into a JavaScript-`Map`-style association list:
append to the existing group of the key, otherwise append a fresh singleton
group at the end (insertion order preserved). -/
def insertGroup {κ α : Type} [DecidableEq κ] :
    List (κ × List α) → κ → α → List (κ × List α)
  | [], k, a => [(k, [a])]
  | (k', g) :: rest, k, a =>
    if k' = k then (k', g ++ [a]) :: rest else (k', g) :: insertGroup rest k a

/-- The grouping loops of data-loader.ts: a `Map` built by pushing each entry
onto the group of its key, iterated in key-insertion order. -/
def groupByKey {κ α : Type} [DecidableEq κ] (key : α → κ) (l : List α) :
    List (κ × List α) :=
  l.foldl (fun m a => insertGroup m (key a) a) []

/-- Comparator relation of `summaries.sort((a, b) => b.date.localeCompare(a.date))`:
descending by date. -/
def dailyDateGE (a b : DailySummary) : Prop := b.date ≤ a.date

instance : DecidableRel dailyDateGE :=
  fun a b => inferInstanceAs (Decidable (b.date ≤ a.date))

instance : IsTotal DailySummary dailyDateGE := ⟨fun a b => le_total b.date a.date⟩

instance : IsTrans DailySummary dailyDateGE :=
  ⟨fun _ _ _ h h' => le_trans h' h⟩

/-- The percent-change pass at the end of `calculateDailySummary`: walking the
date-descending list, set `percentChange` on entry `i` from entry `i+1` (the
next older day) whenever the older day's cost is positive. -/
def applyPercentChanges : List DailySummary → List DailySummary
  | [] => []
  | [s] => [s]
  | s :: s' :: rest =>
    (if 0 < s'.cost then
      { s with percentChange := some ((s.cost - s'.cost) / s'.cost * 100) }
    else s) :: applyPercentChanges (s' :: rest)

/-- The summary record built for one day group in `calculateDailySummary`. -/
def mkDailySummary (date : Int) (dayEntries : List UsageEntry) : DailySummary :=
  { date := date
    tokens := sumTokens dayEntries
    cost := sumCost dayEntries
    entryCount := dayEntries.length }

/-- `calculateDailySummary` of data-loader.ts: group by calendar date, sum per
group, sort descending by date, then apply the percent-change pass. -/
def calculateDailySummary (entries : List UsageEntry) : List DailySummary :=
  let grouped := groupByKey (fun e => formatDate e.timestamp) entries
  let summaries := grouped.map (fun g => mkDailySummary g.1 g.2)
  applyPercentChanges (summaries.insertionSort dailyDateGE)

example :
    (calculateDailySummary
      [⟨0, ⟨1, 2, 0, 0⟩, 1, "p", "s"⟩,
       ⟨msPerDay, ⟨0, 0, 0, 0⟩, 2, "p", "s"⟩]).map (fun d => (d.date, d.cost, d.percentChange))
      = [(1, 2, some 100), (0, 1, none)] := by
  norm_num [calculateDailySummary, groupByKey, insertGroup, mkDailySummary,
    applyPercentChanges, sumTokens, sumCost, zeroTokens, addEntryTokens,
    formatDate, msPerDay, dailyDateGE, List.insertionSort, List.orderedInsert]

/-- Comparator relation of `summaries.sort((a, b) => b.cost - a.cost)` on
session summaries: descending by cost. -/
def sessionCostGE (a b : SessionSummary) : Prop := b.cost ≤ a.cost

instance : DecidableRel sessionCostGE :=
  fun a b => inferInstanceAs (Decidable (b.cost ≤ a.cost))

instance : IsTotal SessionSummary sessionCostGE := ⟨fun a b => le_total b.cost a.cost⟩

instance : IsTrans SessionSummary sessionCostGE :=
  ⟨fun _ _ _ h h' => le_trans h' h⟩

/-- Comparator relation of `summaries.sort((a, b) => b.cost - a.cost)` on
project summaries: descending by cost. -/
def projectCostGE (a b : ProjectSummary) : Prop := b.cost ≤ a.cost

instance : DecidableRel projectCostGE :=
  fun a b => inferInstanceAs (Decidable (b.cost ≤ a.cost))

instance : IsTotal ProjectSummary projectCostGE := ⟨fun a b => le_total b.cost a.cost⟩

instance : IsTrans ProjectSummary projectCostGE :=
  ⟨fun _ _ _ h h' => le_trans h' h⟩

/-- Comparator relation of `summaries.sort((a, b) => a.hour.localeCompare(b.hour))`:
ascending by hour key. -/
def hourlyHourLE (a b : HourlySummary) : Prop := a.hour ≤ b.hour

instance : DecidableRel hourlyHourLE :=
  fun a b => inferInstanceAs (Decidable (a.hour ≤ b.hour))

instance : IsTotal HourlySummary hourlyHourLE := ⟨fun a b => le_total a.hour b.hour⟩

instance : IsTrans HourlySummary hourlyHourLE :=
  ⟨fun _ _ _ h h' => le_trans h h'⟩

/-- A JavaScript `Set` built by iterated `add`: the distinct values of a list
in first-occurrence order. -/
def dedupFirst {α : Type} [DecidableEq α] (l : List α) : List α :=
  l.foldl (fun acc a => if a ∈ acc then acc else acc ++ [a]) []

/-- The `startTime` accumulation of `calculateSessionSummary`
(`if (entry.timestamp < startTime) startTime = entry.timestamp`). -/
def sessionMinTs (g : List UsageEntry) (init : Int) : Int :=
  g.foldl (fun s e => if e.timestamp < s then e.timestamp else s) init

/-- The `endTime` accumulation of `calculateSessionSummary`. -/
def sessionMaxTs (g : List UsageEntry) (init : Int) : Int :=
  g.foldl (fun s e => if s < e.timestamp then e.timestamp else s) init

/-- The summary record built for one project/session group.  The source
round-trips the key through the string `"proj/sess"` and `split("/")`, which
is the identity on the pair because path segments contain no separator; the
`|| "Unknown"` guards catch the empty string (the only falsy string). -/
def mkSessionSummary (key : String × String) (sessionEntries : List UsageEntry) :
    SessionSummary :=
  let init := ((sessionEntries.head?).map (fun e => e.timestamp)).getD 0
  { project := if key.1 = "" then "Unknown" else key.1
    session := if key.2 = "" then "Unknown" else key.2
    tokens := sumTokens sessionEntries
    cost := sumCost sessionEntries
    startTime := sessionMinTs sessionEntries init
    endTime := sessionMaxTs sessionEntries init
    entryCount := sessionEntries.length }

/-- `calculateSessionSummary` of data-loader.ts: group by the
`(project, session)` pair, sum per group, sort descending by cost. -/
def calculateSessionSummary (entries : List UsageEntry) : List SessionSummary :=
  let grouped := groupByKey (fun e => (e.project, e.session)) entries
  let summaries := grouped.map (fun g => mkSessionSummary g.1 g.2)
  summaries.insertionSort sessionCostGE

/-- Grouping key of `calculateProjectSummary` (`entry.project || "Unknown"`). -/
def projKey (e : UsageEntry) : String := if e.project = "" then "Unknown" else e.project

/-- The summary record built for one project group.  `totalCost` is the grand
total over all entries; `sessions` counts the distinct session ids seen in the
group (the per-project `Set`). -/
def mkProjectSummary (project : String) (projectEntries : List UsageEntry)
    (totalCost : ℚ) : ProjectSummary :=
  let cost := sumCost projectEntries
  { project := project
    tokens := sumTokens projectEntries
    cost := cost
    percentage := if 0 < totalCost then cost / totalCost * 100 else 0
    sessions := (dedupFirst (projectEntries.map (fun e => e.session))).length }

/-- `calculateProjectSummary` of data-loader.ts: group by project id, sum per
group, attach each project's share of the grand total, sort descending by
cost. -/
def calculateProjectSummary (entries : List UsageEntry) : List ProjectSummary :=
  let grouped := groupByKey projKey entries
  let totalCost := sumCost entries
  let summaries := grouped.map (fun g => mkProjectSummary g.1 g.2 totalCost)
  summaries.insertionSort projectCostGE

/-- `Math.ceil(a / b)` for a positive divisor, on integers. -/
def jsCeilDiv (a b : Int) : Int := -(Int.fdiv (-a) b)

/-- The summary record built for one hour group in `calculateHourlySummary`. -/
def mkHourlySummary (hour : Int) (hourEntries : List UsageEntry) : HourlySummary :=
  { hour := hour
    hourLabel := hourLabelOf hour
    tokens := sumTokens hourEntries
    cost := sumCost hourEntries
    entryCount := hourEntries.length }

/-- The zero-valued placeholder pushed for an hour slot with no events. -/
def zeroHourly (hour : Int) : HourlySummary :=
  { hour := hour
    hourLabel := hourLabelOf hour
    tokens := zeroTokens
    cost := 0
    entryCount := 0 }

/-- `calculateHourlySummary` of data-loader.ts.  The ambient `new Date()` is
threaded as the explicit parameter `now`.  Entries are filtered to the
trailing `hoursLimit`-hour window (unless `skipTimeFilter`), grouped by hour
start, summed, sorted ascending, and then densified one slot per hour from
the window's start hour. -/
def calculateHourlySummary (entries : List UsageEntry) (hoursLimit : Nat)
    (skipTimeFilter : Bool) (now : Int) : List HourlySummary :=
  let cutoffTime := now - (hoursLimit : Int) * msPerHour
  let recentEntries :=
    if skipTimeFilter then entries
    else entries.filter (fun e => cutoffTime ≤ e.timestamp)
  let grouped := groupByKey (fun e => hourStart e.timestamp) recentEntries
  let summaries := grouped.map (fun g => mkHourlySummary g.1 g.2)
  let sorted := summaries.insertionSort hourlyHourLE
  let startHour := if skipTimeFilter then dayStart now else hourStart cutoffTime
  let actualHoursLimit : Int :=
    if skipTimeFilter then min (jsCeilDiv (now - startHour) msPerHour) 24
    else (hoursLimit : Int)
  (List.range actualHoursLimit.toNat).map (fun (i : Nat) =>
    let currentHour := startHour + (i : Int) * msPerHour
    match sorted.find? (fun s => s.hour == currentHour) with
    | some existingSummary => existingSummary
    | none => zeroHourly currentHour)

/-- The `reduce` locating the most recent entry
(`new Date(entry.timestamp) > new Date(latest.timestamp) ? entry : latest`). -/
def mostRecent? : List UsageEntry → Option UsageEntry
  | [] => none
  | e :: rest =>
    some (rest.foldl (fun latest x => if latest.timestamp < x.timestamp then x else latest) e)

/-- `getCurrentHourEntries` of data-loader.ts.  The ambient clock is the
explicit `sysNow`.  Without a reference date, a data set whose most recent
entry is from a different calendar year moves the effective "now" onto the
data's date, keeping the system time of day (`setHours(h, m, s)` keeps the
millisecond part of the copied date). -/
def getCurrentHourEntries (entries : List UsageEntry) (referenceDate : Option Int)
    (sysNow : Int) : List UsageEntry :=
  let effectiveNow :=
    match referenceDate with
    | some r => r
    | none =>
      match mostRecent? entries with
      | none => sysNow
      | some m =>
        if 1 ≤ (yearOf sysNow - yearOf m.timestamp).natAbs then
          dayStart m.timestamp + (msOfDay sysNow - Int.emod sysNow 1000) +
            Int.emod m.timestamp 1000
        else sysNow
  let currentHourStart := hourStart effectiveNow
  let currentHourEnd := currentHourStart + msPerHour
  entries.filter (fun e => currentHourStart ≤ e.timestamp ∧ e.timestamp < currentHourEnd)

/-- The current-hour patch of `aggregateUsageData` (applied verbatim to both
the 24h series and the today series): when the hour containing "now" has
entries with positive cost but is absent from the densified series, append it
and re-sort ascending by hour key. -/
def patchCurrentHour (series : List HourlySummary) (entries : List UsageEntry)
    (sysNow : Int) : List HourlySummary :=
  let currentHourEntries := getCurrentHourEntries entries none sysNow
  if 0 < currentHourEntries.length then
    let currentHourISO := hourStart sysNow
    if (series.findIdx? (fun h => h.hour == currentHourISO)).isSome then series
    else
      let currentHourCost := sumCost currentHourEntries
      if 0 < currentHourCost then
        (series ++ [({ hour := currentHourISO
                       hourLabel := hourLabelOf currentHourISO
                       tokens := sumTokens currentHourEntries
                       cost := currentHourCost
                       entryCount := currentHourEntries.length } : HourlySummary)]).insertionSort
          hourlyHourLE
      else series
  else series

/-- `Array.from(new Set(dates)).sort().reverse()[0]`: the most recent date
string present in the data. -/
def mostRecentDataDate? (entries : List UsageEntry) : Option Int :=
  (((dedupFirst (entries.map (fun e => formatDate e.timestamp))).insertionSort
      (fun a b => a ≤ b)).reverse).head?

/-- The `today` date key of `aggregateUsageData`: the system date, replaced by
the most recent entry's date when the data's year differs from the system's
by at least one (the documented 2024-data-on-2025-clock workaround). -/
def todayKeyOf (entries : List UsageEntry) (sysNow : Int) : Int :=
  match mostRecent? entries with
  | some m =>
    if 1 ≤ (yearOf sysNow - yearOf m.timestamp).natAbs then formatDate m.timestamp
    else formatDate sysNow
  | none => formatDate sysNow

/-- The entries `aggregateUsageData` feeds into the today-hourly series: the
entries of the `today` key, falling back to the most recent data date when
no entry matches `today` and the data is non-empty. -/
def effectiveTodayEntriesOf (entries : List UsageEntry) (sysNow : Int) :
    List UsageEntry :=
  let today := todayKeyOf entries sysNow
  let todayEntries := entries.filter (fun e => formatDate e.timestamp == today)
  if todayEntries.isEmpty ∧ ¬ entries.isEmpty then
    match mostRecentDataDate? entries with
    | some mostRecentDate =>
      entries.filter (fun e => formatDate e.timestamp == mostRecentDate)
    | none => todayEntries
  else todayEntries

/-- Day of week of an instant (`Date.getDay`), 0 = Sunday. -/
def dayOfWeek (t : Int) : Int := Int.emod (formatDate t + 4) 7

/-- Day of month of an instant (`Date.getDate`), 1-based, by the standard
civil-from-days algorithm. -/
def dayOfMonth (t : Int) : Int :=
  let z := Int.fdiv t msPerDay + 719468
  let era := Int.fdiv z 146097
  let doe := z - era * 146097
  let yoe := Int.fdiv (doe - Int.fdiv doe 1460 + Int.fdiv doe 36524 - Int.fdiv doe 146096) 365
  let doy := doe - (365 * yoe + Int.fdiv yoe 4 - Int.fdiv yoe 100)
  let mp := Int.fdiv (5 * doy + 2) 153
  doy - Int.fdiv (153 * mp + 2) 5 + 1

/-- The `thisWeek` / `thisMonth` accumulator shape. -/
structure TotalsSnapshot where
  inputTokens : Int
  outputTokens : Int
  cacheCreationTokens : Int
  cacheReadTokens : Int
  totalCost : ℚ
deriving DecidableEq

/-- Fold of daily summaries at or after a cutoff day-start into a totals
snapshot (the `thisWeek` / `thisMonth` loop of `aggregateUsageData`;
`new Date(day.date)` is the UTC midnight of the date string). -/
def sumDailyFrom (daily : List DailySummary) (startMs : Int) : TotalsSnapshot :=
  daily.foldl
    (fun (acc : TotalsSnapshot) (day : DailySummary) =>
      if startMs ≤ day.date * msPerDay then
        { inputTokens := acc.inputTokens + day.tokens.inputTokens
          outputTokens := acc.outputTokens + day.tokens.outputTokens
          cacheCreationTokens := acc.cacheCreationTokens + day.tokens.cacheCreationTokens
          cacheReadTokens := acc.cacheReadTokens + day.tokens.cacheReadTokens
          totalCost := acc.totalCost + day.cost }
      else acc)
    ⟨0, 0, 0, 0, 0⟩

/-- `UsageData` of shared/types.ts: the full aggregate bundle. -/
structure UsageData where
  daily : List DailySummary
  sessions : List SessionSummary
  projects : List ProjectSummary
  hourly : List HourlySummary
  todayHourly : List HourlySummary
  today : Option DailySummary
  thisWeek : TotalsSnapshot
  thisMonth : TotalsSnapshot
deriving DecidableEq

/-- `aggregateUsageData` of data-loader.ts, with the ambient clock threaded
as `sysNow`. -/
def aggregateUsageData (entries : List UsageEntry) (sysNow : Int) : UsageData :=
  let daily := calculateDailySummary entries
  let sessions := calculateSessionSummary entries
  let projects := calculateProjectSummary entries
  let hourly := patchCurrentHour (calculateHourlySummary entries 24 false sysNow) entries sysNow
  let today := todayKeyOf entries sysNow
  let effectiveTodayEntries := effectiveTodayEntriesOf entries sysNow
  let todayHourly :=
    patchCurrentHour (calculateHourlySummary effectiveTodayEntries 24 true sysNow)
      effectiveTodayEntries sysNow
  let todayData := daily.find? (fun d => d.date == today)
  let weekStart := dayStart sysNow - dayOfWeek sysNow * msPerDay
  let monthStart := dayStart sysNow - (dayOfMonth sysNow - 1) * msPerDay
  { daily := daily
    sessions := sessions
    projects := projects
    hourly := hourly
    todayHourly := todayHourly
    today := todayData
    thisWeek := sumDailyFrom daily weekStart
    thisMonth := sumDailyFrom daily monthStart }

/-- `Session` of ExpandedView.tsx: a contiguous run of hourly summaries.
`startHour` / `endHour` hold the display labels of the first and last member
data-hours; `date` is the calendar date of the first member hour (the
display-string formatting, including its 2025-to-2024 display workaround, is
abstracted to the day index). -/
structure Session where
  startHour : Int
  endHour : Int
  hours : List HourlySummary
  totalCost : ℚ
  date : Int
  isOngoing : Bool
deriving DecidableEq

/-- `getDateFromHour` of ExpandedView.tsx, modelled as the day index of the
hour key. -/
def getDateFromHour (hour : Int) : Int := formatDate hour

/-- The scan loop of `identifySessions`: walks the hourly series oldest to
newest carrying the open session (with its start index) and the list of
closed sessions.  A positive-cost hour opens or extends a session; a
zero-cost hour within 5 hours of the session start bridges it; reaching a
window length of 5 (inclusive of the hour just added) closes the session. -/
def sessLoop : List HourlySummary → Nat → Option (Session × Nat) → List Session →
    List Session × Option (Session × Nat)
  | [], _, currentSession, sessions => (sessions, currentSession)
  | hour :: rest, i, currentSession, sessions =>
    if 0 < hour.cost then
      let sp :=
        match currentSession with
        | none =>
          (({ startHour := hour.hourLabel
              endHour := hour.hourLabel
              hours := []
              totalCost := 0
              date := getDateFromHour hour.hour
              isOngoing := false } : Session), i)
        | some sp => sp
      let s := { sp.1 with
                 hours := sp.1.hours ++ [hour]
                 totalCost := sp.1.totalCost + hour.cost
                 endHour := hour.hourLabel }
      if 5 ≤ i - sp.2 + 1 then sessLoop rest (i + 1) none (sessions ++ [s])
      else sessLoop rest (i + 1) (some (s, sp.2)) sessions
    else
      match currentSession with
      | some sp =>
        if i - sp.2 < 5 then
          let s := { sp.1 with
                     hours := sp.1.hours ++ [hour]
                     endHour := hour.hourLabel }
          if 5 ≤ i - sp.2 + 1 then sessLoop rest (i + 1) none (sessions ++ [s])
          else sessLoop rest (i + 1) (some (s, sp.2)) sessions
        else sessLoop rest (i + 1) none (sessions ++ [sp.1])
      | none => sessLoop rest (i + 1) none sessions

/-- The ongoing-marking of the flush step of `identifySessions`: set
`isOngoing` when the session contains the very last hour of the input
(`currentSession.hours.includes(lastHour)`) and holds fewer than 5 hours. -/
def markOngoing (hourlyData : List HourlySummary) (s : Session) : Session :=
  match hourlyData.getLast? with
  | some lastHour =>
    if lastHour ∈ s.hours then
      if s.hours.length < 5 then { s with isOngoing := true } else s
    else s
  | none => s

/-- `identifySessions` of ExpandedView.tsx: run the scan loop, flush a
remaining open session (marking it ongoing via `markOngoing`), and reverse to
newest-first. -/
def identifySessions (hourlyData : List HourlySummary) : List Session :=
  let r := sessLoop hourlyData 0 none []
  let sessions :=
    match r.2 with
    | some sp =>
      if 0 < sp.1.hours.length then r.1 ++ [markOngoing hourlyData sp.1]
      else r.1
    | none => r.1
  sessions.reverse

/-- `todayHourlyData[i].cost` with JavaScript's out-of-bounds-is-falsy
behaviour: 0 outside the array. -/
def costAt (data : List HourlySummary) (i : Nat) : ℚ :=
  ((data.get? i).map (fun h => h.cost)).getD 0

/-- `todayHourlyData[i].hour` as epoch ms, 0 outside the array (only ever
read at an in-range index). -/
def hourAt (data : List HourlySummary) (i : Nat) : Int :=
  ((data.get? i).map (fun h => h.hour)).getD 0

/-- The backward scan of `calculateCurrentSessionCost` locating the most
recent hour with activity. -/
def lastActiveIndex? (data : List HourlySummary) : Option Nat :=
  (List.range data.length).reverse.find? (fun i => decide (0 < costAt data i))

/-- The `hasActivityAfter` lookahead (up to 2 hours ahead, capped at the last
active index). -/
def hasActivityAfter (data : List HourlySummary) (i lastActive : Nat) : Prop :=
  (i + 1 ≤ lastActive ∧ 0 < costAt data (i + 1)) ∨
  (i + 2 ≤ lastActive ∧ 0 < costAt data (i + 2))

instance (data : List HourlySummary) (i lastActive : Nat) :
    Decidable (hasActivityAfter data i lastActive) :=
  inferInstanceAs (Decidable (_ ∨ _))

/-- The activity-before lookbehind (up to 2 hours back, floored at 0). -/
def hasActivityBefore (data : List HourlySummary) (i : Nat) : Prop :=
  (1 ≤ i ∧ 0 < costAt data (i - 1)) ∨ (2 ≤ i ∧ 0 < costAt data (i - 2))

instance (data : List HourlySummary) (i : Nat) :
    Decidable (hasActivityBefore data i) :=
  inferInstanceAs (Decidable (_ ∨ _))

/-- Whether hour `i` belongs to the running session: it has its own activity,
or it bridges activity within the 2-hour lookahead/lookbehind. -/
def includeInSession (data : List HourlySummary) (i lastActive : Nat) : Prop :=
  0 < costAt data i ∨ (hasActivityAfter data i lastActive ∧ hasActivityBefore data i)

instance (data : List HourlySummary) (i lastActive : Nat) :
    Decidable (includeInSession data i lastActive) :=
  inferInstanceAs (Decidable (_ ∨ _))

/-- The backward accumulation loop of `calculateCurrentSessionCost`: walk at
most 4 hours back from the last active hour (`steps` counts the remaining
iterations), adding each included hour's cost, stopping at the first true
gap or at index -1. -/
def backLoop (data : List HourlySummary) (lastActive : Nat) :
    Nat → Int → ℚ → ℚ
  | 0, _, sessionCost => sessionCost
  | steps + 1, i, sessionCost =>
    if i < 0 then sessionCost
    else if includeInSession data i.toNat lastActive then
      backLoop data lastActive steps (i - 1) (sessionCost + costAt data i.toNat)
    else sessionCost

/-- `calculateCurrentSessionCost` of session-calculator.ts (the version
taking the optional full entry list).  `currentTime` is the explicit
reference instant; `getCurrentHourEntries` receives it as reference date, so
the ambient-clock argument is irrelevant there. -/
def calculateCurrentSessionCost (todayHourlyData : List HourlySummary)
    (currentTime : Int) (allEntries : Option (List UsageEntry)) : ℚ :=
  let currentHourEntries :=
    match allEntries with
    | some es => getCurrentHourEntries es (some currentTime) currentTime
    | none => []
  if todayHourlyData.isEmpty then
    if ¬ currentHourEntries.isEmpty then sumCost currentHourEntries else 0
  else
    match lastActiveIndex? todayHourlyData with
    | none => 0
    | some lastActiveIndex =>
      let lastActiveTime := hourAt todayHourlyData lastActiveIndex
      let hoursSinceLastActivity : ℚ := ((currentTime - lastActiveTime : Int) : ℚ) / 3600000
      if 5 ≤ hoursSinceLastActivity then 0
      else
        let sessionCost :=
          backLoop todayHourlyData lastActiveIndex 4 ((lastActiveIndex : Int) - 1)
            (costAt todayHourlyData lastActiveIndex)
        if ¬ currentHourEntries.isEmpty then
          if hoursSinceLastActivity < 5 then sessionCost + sumCost currentHourEntries
          else sessionCost
        else sessionCost

/-- File-change notification kinds emitted by the watcher. -/
inductive FileChangeKind where
  | add
  | change
  | unlink
deriving DecidableEq

/-- `FileChangeEvent` of shared/types.ts. -/
structure FileChangeEvent where
  type : FileChangeKind
  path : String
  timestamp : Int
deriving DecidableEq

/-- State of the DataService update queue.  `updateQueue` and `isProcessing`
are the two mutable fields of the source; `inFlight` is the batch snapshot
taken by `processUpdateQueue` (`[...this.updateQueue]`), `processed` the
history of drained batches and `arrived` the history of notifications, both
ghost fields recording behaviour for the statements below. -/
structure QueueState where
  updateQueue : List FileChangeEvent
  isProcessing : Bool
  inFlight : List FileChangeEvent
  processed : List (List FileChangeEvent)
  arrived : List FileChangeEvent
deriving DecidableEq

/-- The initial DataService queue state: empty queue, not processing. -/
def initQueueState : QueueState := ⟨[], false, [], [], []⟩

/-- Step relation of the update queue.  `notify` is `queueFileUpdate` pushing
one event; `beginBatch` is `processUpdateQueue` passing its
`isProcessing || queue empty` guard, snapshotting and clearing the queue;
`finishBatch` is the end of the batch (cache updates applied, broadcast
done, `finally` clearing the flag).  A `processUpdateQueue` call that fails
the guard leaves the state unchanged and needs no step. -/
inductive QueueStep : QueueState → QueueState → Prop
  | notify (s : QueueState) (e : FileChangeEvent) :
      QueueStep s { s with updateQueue := s.updateQueue ++ [e], arrived := s.arrived ++ [e] }
  | beginBatch (s : QueueState) :
      s.isProcessing = false → s.updateQueue ≠ [] →
      QueueStep s { s with isProcessing := true, inFlight := s.updateQueue, updateQueue := [] }
  | finishBatch (s : QueueState) :
      s.isProcessing = true →
      QueueStep s { s with isProcessing := false, inFlight := [],
                           processed := s.processed ++ [s.inFlight] }

/-- Reachability from the initial queue state. -/
inductive QueueReachable : QueueState → Prop
  | init : QueueReachable initQueueState
  | step {s s' : QueueState} : QueueReachable s → QueueStep s s' → QueueReachable s'

/-- Outcome of `parseJsonlFile` for one file: a parsed entry list, or a
thrown read/parse error. -/
abbrev ParseOutcome : Type := Except Unit (List UsageEntry)

/-- The ingestion cache: source path to parsed entries, in insertion order
(a JavaScript `Map`). -/
abbrev Cache : Type := List (String × List UsageEntry)

/-- `Map.set`: replace in place if the key exists, else append. -/
def cacheSet : Cache → String → List UsageEntry → Cache
  | [], k, v => [(k, v)]
  | (k', v') :: rest, k, v =>
    if k' = k then (k, v) :: rest else (k', v') :: cacheSet rest k v

/-- `Map.delete`: drop the entry of the key (keys are unique by
construction). -/
def cacheDelete : Cache → String → Cache
  | [], _ => []
  | (k', v') :: rest, k => if k' = k then rest else (k', v') :: cacheDelete rest k

/-- One file of the initial bulk load in `loadAllData`: store the parse
result only when it is non-empty; a parse failure is logged and skipped.
The source processes files in concurrent groups of 10, but each file only
touches its own key, so the sequential fold is its serialisation. -/
def loadFileStep (cache : Cache) (file : String × ParseOutcome) : Cache :=
  match file.2 with
  | Except.ok entries => if 0 < entries.length then cacheSet cache file.1 entries else cache
  | Except.error _ => cache

/-- `loadAllData` of data-service.ts, over the discovered files paired with
their parse outcomes. -/
def loadAllData (files : List (String × ParseOutcome)) : Cache :=
  files.foldl loadFileStep []

/-- One queued update applied by `processUpdateQueue`: `unlink` deletes the
entry; `add`/`change` re-parse (outcome supplied), storing a non-empty
result and deleting the entry on an empty result or an error. -/
inductive FileUpdate where
  | unlink (path : String)
  | reparse (path : String) (outcome : ParseOutcome)

/-- The cache effect of one update in the batch loop of
`processUpdateQueue`. -/
def applyUpdate (cache : Cache) (u : FileUpdate) : Cache :=
  match u with
  | FileUpdate.unlink path => cacheDelete cache path
  | FileUpdate.reparse path (Except.ok entries) =>
    if 0 < entries.length then cacheSet cache path entries else cacheDelete cache path
  | FileUpdate.reparse path (Except.error _) => cacheDelete cache path

/-- The batch loop of `processUpdateQueue` over a drained batch. -/
def processBatch (cache : Cache) (updates : List FileUpdate) : Cache :=
  updates.foldl applyUpdate cache

/-! ### Cost-sum lemmas for the daily aggregation -/

theorem sumCost_foldl (l : List UsageEntry) (c : ℚ) :
    l.foldl (fun c e => c + e.costUSD) c = c + (l.map (fun e => e.costUSD)).sum := by
  induction l generalizing c with
  | nil => simp
  | cons e rest ih => simp [List.foldl, ih, add_assoc]

theorem sumCost_eq (l : List UsageEntry) :
    sumCost l = (l.map (fun e => e.costUSD)).sum := by
  simpa [sumCost] using sumCost_foldl l 0

theorem sumCost_append_singleton (l : List UsageEntry) (a : UsageEntry) :
    sumCost (l ++ [a]) = sumCost l + a.costUSD := by
  simp [sumCost_eq]

theorem insertGroup_cost {κ : Type} [DecidableEq κ]
    (m : List (κ × List UsageEntry)) (k : κ) (a : UsageEntry) :
    ((insertGroup m k a).map (fun g => sumCost g.2)).sum
      = (m.map (fun g => sumCost g.2)).sum + a.costUSD := by
  induction m with
  | nil => simp [insertGroup, sumCost_eq]
  | cons g rest ih =>
    by_cases h : g.1 = k
    · simp [insertGroup, h, sumCost_append_singleton]
      ring
    · simp [insertGroup, h, ih]
      ring

theorem groupByKey_cost_aux {κ : Type} [DecidableEq κ] (key : UsageEntry → κ)
    (l : List UsageEntry) (m : List (κ × List UsageEntry)) :
    ((l.foldl (fun m a => insertGroup m (key a) a) m).map (fun g => sumCost g.2)).sum
      = (m.map (fun g => sumCost g.2)).sum + sumCost l := by
  induction l generalizing m with
  | nil => simp [sumCost]
  | cons a rest ih =>
    have : sumCost (a :: rest) = a.costUSD + sumCost rest := by
      simp [sumCost_eq]
    simp only [List.foldl, ih, insertGroup_cost, this]
    ring

theorem groupByKey_cost {κ : Type} [DecidableEq κ] (key : UsageEntry → κ)
    (l : List UsageEntry) :
    ((groupByKey key l).map (fun g => sumCost g.2)).sum = sumCost l := by
  simpa [groupByKey] using groupByKey_cost_aux key l []

theorem applyPercentChanges_map_cost (l : List DailySummary) :
    (applyPercentChanges l).map (fun d => d.cost) = l.map (fun d => d.cost) := by
  induction l with
  | nil => rfl
  | cons s tail ih =>
    cases tail with
    | nil => rfl
    | cons s' rest =>
      simp only [applyPercentChanges, List.map]
      rw [ih]
      simp only [List.map]
      congr 1
      by_cases h : 0 < s'.cost <;> simp [h]

/-- C1.  For every event list, the sum of `cost` over all summaries returned
by the daily aggregation equals the sum of `costUSD` over all input events
(conservation of cost across the daily grouping; amounts are exact
rationals in this model). -/
theorem daily_cost_conservation (entries : List UsageEntry) :
    ((calculateDailySummary entries).map (fun d => d.cost)).sum
      = (entries.map (fun e => e.costUSD)).sum := by
  unfold calculateDailySummary
  rw [applyPercentChanges_map_cost]
  have hperm :
      List.Perm
        (((groupByKey (fun e => formatDate e.timestamp) entries).map
          (fun g => mkDailySummary g.1 g.2)).insertionSort dailyDateGE)
        ((groupByKey (fun e => formatDate e.timestamp) entries).map
            (fun g => mkDailySummary g.1 g.2)) :=
    List.perm_insertionSort _ _
  rw [(hperm.map (fun d => d.cost)).sum_eq]
  rw [List.map_map]
  have : ((fun d => d.cost) ∘ fun g : Int × List UsageEntry => mkDailySummary g.1 g.2)
      = fun g : Int × List UsageEntry => sumCost g.2 := rfl
  rw [this, groupByKey_cost, sumCost_eq]

/-! ### Percent-change characterisation for the daily series -/

theorem applyPercentChanges_get? (l : List DailySummary) (i : Nat) :
    (applyPercentChanges l).get? i =
      (l.get? i).map (fun s =>
        match l.get? (i + 1) with
        | some s' =>
          if 0 < s'.cost then
            { s with percentChange := some ((s.cost - s'.cost) / s'.cost * 100) }
          else s
        | none => s) := by
  induction l generalizing i with
  | nil => simp [applyPercentChanges]
  | cons s tail ih =>
    cases tail with
    | nil =>
      cases i with
      | zero => simp [applyPercentChanges]
      | succ j => simp [applyPercentChanges]
    | cons s' rest =>
      cases i with
      | zero => simp [applyPercentChanges]
      | succ j =>
        simpa [applyPercentChanges] using ih j

theorem dailySummaries_percentChange_none (entries : List UsageEntry)
    (s : DailySummary)
    (hs : s ∈ ((groupByKey (fun e => formatDate e.timestamp) entries).map
        (fun g => mkDailySummary g.1 g.2)).insertionSort dailyDateGE) :
    s.percentChange = none := by
  have hmem := (List.perm_insertionSort dailyDateGE _).mem_iff.mp hs
  obtain ⟨g, _, rfl⟩ := List.mem_map.mp hmem
  rfl

/-- C2 counterexample.  Two events: day 0 with cost 0, day 1 with cost 5.
In the date-descending daily series the newest entry has a zero-cost older
neighbour and a positive current cost, yet its `percentChange` is `none` —
not the 100 the claim's zero-to-positive exception demands. -/
theorem daily_percentChange_zero_prev_counterexample :
    (calculateDailySummary
        [⟨0, ⟨0, 0, 0, 0⟩, 0, "p", "s"⟩,
         ⟨msPerDay, ⟨0, 0, 0, 0⟩, 5, "p", "s"⟩]).map
        (fun d => (d.date, d.cost, d.percentChange))
      = [(1, 5, none), (0, 0, none)] := by
  norm_num [calculateDailySummary, groupByKey, insertGroup, mkDailySummary,
    applyPercentChanges, sumTokens, sumCost, zeroTokens, addEntryTokens,
    formatDate, msPerDay, dailyDateGE, List.insertionSort, List.orderedInsert]

/-- C2 amended.  In the sorted daily series, `percentChange` is never set on
the oldest (last) entry, and on every other entry it is set if and only if
the adjacent older period's cost is positive, in which case it equals
`(current - previous) / previous * 100`; whenever the older period's cost is
not positive — including the zero-previous-to-positive-current case — it is
`none`. -/
theorem daily_percentChange_spec (entries : List UsageEntry) :
    (∀ i s, (calculateDailySummary entries).get? i = some s →
        (calculateDailySummary entries).get? (i + 1) = none →
        s.percentChange = none) ∧
    (∀ i s s', (calculateDailySummary entries).get? i = some s →
        (calculateDailySummary entries).get? (i + 1) = some s' →
        s.percentChange =
          if 0 < s'.cost then some ((s.cost - s'.cost) / s'.cost * 100) else none) := by
  have hget := fun i => applyPercentChanges_get?
    (((groupByKey (fun e => formatDate e.timestamp) entries).map
        (fun g => mkDailySummary g.1 g.2)).insertionSort dailyDateGE) i
  have hlen : ∀ i, (calculateDailySummary entries).get? i = none ↔
      (((groupByKey (fun e => formatDate e.timestamp) entries).map
        (fun g => mkDailySummary g.1 g.2)).insertionSort dailyDateGE).get? i = none := by
    intro i
    rw [show calculateDailySummary entries = applyPercentChanges _ from rfl, hget i]
    simp
  constructor
  · intro i s hs hnone
    have hs' := hs
    rw [show calculateDailySummary entries = applyPercentChanges _ from rfl, hget i] at hs'
    obtain ⟨t, ht, hts⟩ := Option.map_eq_some'.mp hs'
    have htail : (((groupByKey (fun e => formatDate e.timestamp) entries).map
        (fun g => mkDailySummary g.1 g.2)).insertionSort dailyDateGE).get? (i + 1) = none :=
      (hlen (i + 1)).mp hnone
    rw [htail] at hts
    have := dailySummaries_percentChange_none entries t (List.get?_mem ht)
    simpa [← hts] using this
  · intro i s s' hs hs'
    have hsm := hs
    rw [show calculateDailySummary entries = applyPercentChanges _ from rfl, hget i] at hsm
    obtain ⟨t, ht, hts⟩ := Option.map_eq_some'.mp hsm
    have hs'm := hs'
    rw [show calculateDailySummary entries = applyPercentChanges _ from rfl, hget (i + 1)] at hs'm
    obtain ⟨t', ht', ht's⟩ := Option.map_eq_some'.mp hs'm
    rw [ht'] at hts
    have htpc := dailySummaries_percentChange_none entries t (List.get?_mem ht)
    have hcost : s.cost = t.cost := by
      by_cases h : 0 < t'.cost <;> simp [← hts, h]
    have hcost' : s'.cost = t'.cost := by
      cases hmatch : (((groupByKey (fun e => formatDate e.timestamp) entries).map
          (fun g => mkDailySummary g.1 g.2)).insertionSort dailyDateGE).get? (i + 1 + 1) with
      | none => rw [hmatch] at ht's; simp [← ht's]
      | some t'' =>
        rw [hmatch] at ht's
        by_cases h : 0 < t''.cost <;> simp [← ht's, h]
    by_cases h : 0 < t'.cost
    · rw [← hts]
      simp [h, hcost'.symm ▸ h, hcost, hcost']
    · rw [← hts]
      have : ¬ 0 < s'.cost := by rw [hcost']; exact h
      simp [h, this, htpc]

/-- C2 witness: the amended statement applied to the two-day counterexample
data, newest entry against its zero-cost older neighbour. -/
theorem daily_percentChange_spec_witness :
    (⟨1, ⟨0, 0, 0, 0⟩, 5, 1, none⟩ : DailySummary).percentChange =
      if 0 < (⟨0, ⟨0, 0, 0, 0⟩, 0, 1, none⟩ : DailySummary).cost then
        some (((⟨1, ⟨0, 0, 0, 0⟩, 5, 1, none⟩ : DailySummary).cost -
            (⟨0, ⟨0, 0, 0, 0⟩, 0, 1, none⟩ : DailySummary).cost) /
          (⟨0, ⟨0, 0, 0, 0⟩, 0, 1, none⟩ : DailySummary).cost * 100)
      else none :=
  (daily_percentChange_spec
      [⟨0, ⟨0, 0, 0, 0⟩, 0, "p", "s"⟩, ⟨msPerDay, ⟨0, 0, 0, 0⟩, 5, "p", "s"⟩]).2 0
    ⟨1, ⟨0, 0, 0, 0⟩, 5, 1, none⟩ ⟨0, ⟨0, 0, 0, 0⟩, 0, 1, none⟩
    (by norm_num [calculateDailySummary, groupByKey, insertGroup, mkDailySummary,
      applyPercentChanges, sumTokens, sumCost, zeroTokens, addEntryTokens,
      formatDate, msPerDay, dailyDateGE, List.insertionSort, List.orderedInsert])
    (by norm_num [calculateDailySummary, groupByKey, insertGroup, mkDailySummary,
      applyPercentChanges, sumTokens, sumCost, zeroTokens, addEntryTokens,
      formatDate, msPerDay, dailyDateGE, List.insertionSort, List.orderedInsert])

/-! ### Density of the windowed hourly series -/

theorem insertGroup_keys {κ α : Type} [DecidableEq κ]
    (m : List (κ × List α)) (k' : κ) (a : α) (k : κ)
    (h : k ∈ (insertGroup m k' a).map Prod.fst) :
    k ∈ m.map Prod.fst ∨ k = k' := by
  induction m with
  | nil =>
    simp [insertGroup] at h
    exact Or.inr h
  | cons g rest ih =>
    rcases g with ⟨k0, g0⟩
    by_cases hk : k0 = k'
    · rw [show insertGroup ((k0, g0) :: rest) k' a = (k0, g0 ++ [a]) :: rest by
        simp [insertGroup, hk]] at h
      rw [List.map_cons] at h
      rcases List.mem_cons.mp h with h1 | h1
      · exact Or.inl (by rw [List.map_cons]; exact List.mem_cons.mpr (Or.inl h1))
      · exact Or.inl (by rw [List.map_cons]; exact List.mem_cons.mpr (Or.inr h1))
    · rw [show insertGroup ((k0, g0) :: rest) k' a = (k0, g0) :: insertGroup rest k' a by
        simp [insertGroup, hk]] at h
      rw [List.map_cons] at h
      rcases List.mem_cons.mp h with h1 | h1
      · exact Or.inl (by rw [List.map_cons]; exact List.mem_cons.mpr (Or.inl h1))
      · rcases ih h1 with h2 | h2
        · exact Or.inl (by rw [List.map_cons]; exact List.mem_cons.mpr (Or.inr h2))
        · exact Or.inr h2

theorem groupByKey_keys_aux {κ α : Type} [DecidableEq κ] (key : α → κ)
    (l : List α) (m : List (κ × List α)) (k : κ)
    (h : k ∈ (l.foldl (fun m a => insertGroup m (key a) a) m).map Prod.fst) :
    k ∈ m.map Prod.fst ∨ ∃ a ∈ l, key a = k := by
  induction l generalizing m with
  | nil => exact Or.inl (by simpa using h)
  | cons a rest ih =>
    rcases ih (insertGroup m (key a) a) (by simpa using h) with h' | h'
    · rcases insertGroup_keys m (key a) a k h' with h'' | h''
      · exact Or.inl h''
      · exact Or.inr ⟨a, by simp, h''.symm⟩
    · obtain ⟨b, hb, hbk⟩ := h'
      exact Or.inr ⟨b, by simp [hb], hbk⟩

theorem groupByKey_keys {κ α : Type} [DecidableEq κ] (key : α → κ)
    (l : List α) (k : κ) (h : k ∈ (groupByKey key l).map Prod.fst) :
    ∃ a ∈ l, key a = k := by
  rcases groupByKey_keys_aux key l [] k (by simpa [groupByKey] using h) with h' | h'
  · simp at h'
  · exact h'


/-- C3.  For every event list, window length `N` and reference instant, the
windowed (default-mode, `skipTimeFilter = false`) hourly aggregation returns
exactly `N` slots; slot `i` carries hour key
`hourStart(now - N hours) + i hours`, so keys are pairwise distinct and
strictly increasing; and a slot whose hour contains no in-window event is the
zero-valued placeholder. -/
theorem hourly_window_dense_spec (entries : List UsageEntry) (N : Nat) (now : Int) :
    (calculateHourlySummary entries N false now).length = N ∧
    (∀ i s, (calculateHourlySummary entries N false now).get? i = some s →
        s.hour = hourStart (now - (N : Int) * msPerHour) + (i : Int) * msPerHour) ∧
    (∀ i j s s', (calculateHourlySummary entries N false now).get? i = some s →
        (calculateHourlySummary entries N false now).get? j = some s' →
        i < j → s.hour < s'.hour) ∧
    (∀ i s, (calculateHourlySummary entries N false now).get? i = some s →
        (∀ e ∈ entries, now - (N : Int) * msPerHour ≤ e.timestamp →
            hourStart e.timestamp ≠ s.hour) →
        s = zeroHourly s.hour) := by
  have hdef : calculateHourlySummary entries N false now =
      (List.range N).map (fun (i : Nat) =>
        let currentHour := hourStart (now - (N : Int) * msPerHour) + (i : Int) * msPerHour
        match (((groupByKey (fun e => hourStart e.timestamp)
            (entries.filter (fun e => now - (N : Int) * msPerHour ≤ e.timestamp))).map
              (fun g => mkHourlySummary g.1 g.2)).insertionSort hourlyHourLE).find?
            (fun s => s.hour == currentHour) with
        | some existingSummary => existingSummary
        | none => zeroHourly currentHour) := rfl
  have hget : ∀ i, i < N → (calculateHourlySummary entries N false now).get? i =
      some (match (((groupByKey (fun e => hourStart e.timestamp)
            (entries.filter (fun e => now - (N : Int) * msPerHour ≤ e.timestamp))).map
              (fun g => mkHourlySummary g.1 g.2)).insertionSort hourlyHourLE).find?
            (fun s => s.hour ==
              hourStart (now - (N : Int) * msPerHour) + (i : Int) * msPerHour) with
        | some existingSummary => existingSummary
        | none => zeroHourly (hourStart (now - (N : Int) * msPerHour) + (i : Int) * msPerHour)) := by
    intro i hi
    rw [hdef, List.get?_map, List.get?_range hi]
    rfl
  have hlen : (calculateHourlySummary entries N false now).length = N := by
    rw [hdef]; simp
  have hlt : ∀ i s, (calculateHourlySummary entries N false now).get? i = some s → i < N := by
    intro i s hs
    have := List.get?_eq_some.mp hs
    obtain ⟨h1, _⟩ := this
    rwa [hlen] at h1
  have hhour : ∀ i s, (calculateHourlySummary entries N false now).get? i = some s →
      s.hour = hourStart (now - (N : Int) * msPerHour) + (i : Int) * msPerHour := by
    intro i s hs
    have hi := hlt i s hs
    rw [hget i hi] at hs
    cases hfind : (((groupByKey (fun e => hourStart e.timestamp)
        (entries.filter (fun e => now - (N : Int) * msPerHour ≤ e.timestamp))).map
          (fun g => mkHourlySummary g.1 g.2)).insertionSort hourlyHourLE).find?
        (fun s => s.hour ==
          hourStart (now - (N : Int) * msPerHour) + (i : Int) * msPerHour) with
    | some t =>
      rw [hfind] at hs
      simp only [Option.some_inj] at hs
      have := List.find?_some hfind
      rw [← hs]
      simpa using this
    | none =>
      rw [hfind] at hs
      simp only [Option.some_inj] at hs
      rw [← hs]
      rfl
  refine ⟨hlen, hhour, ?_, ?_⟩
  · intro i j s s' hs hs' hij
    rw [hhour i s hs, hhour j s' hs']
    have hcast : (i : Int) < (j : Int) := by exact_mod_cast hij
    have hpos : (0 : Int) < msPerHour := by norm_num [msPerHour]
    have := mul_lt_mul_of_pos_right hcast hpos
    omega
  · intro i s hs hno
    have hi := hlt i s hs
    have hhour' := hhour i s hs
    rw [hget i hi] at hs
    cases hfind : (((groupByKey (fun e => hourStart e.timestamp)
        (entries.filter (fun e => now - (N : Int) * msPerHour ≤ e.timestamp))).map
          (fun g => mkHourlySummary g.1 g.2)).insertionSort hourlyHourLE).find?
        (fun s => s.hour ==
          hourStart (now - (N : Int) * msPerHour) + (i : Int) * msPerHour) with
    | some t =>
      exfalso
      have htmem := List.mem_of_find?_eq_some hfind
      have htmem' := (List.perm_insertionSort hourlyHourLE _).mem_iff.mp htmem
      obtain ⟨g, hg, hgt⟩ := List.mem_map.mp htmem'
      have hkey : g.1 ∈ ((groupByKey (fun e => hourStart e.timestamp)
          (entries.filter (fun e => now - (N : Int) * msPerHour ≤ e.timestamp))).map
            Prod.fst) := List.mem_map_of_mem Prod.fst hg
      obtain ⟨a, ha, hak⟩ := groupByKey_keys _ _ _ hkey
      have hamem := List.mem_filter.mp ha
      have hfilt : now - (N : Int) * msPerHour ≤ a.timestamp := by
        simpa using hamem.2
      have hthour : t.hour =
          hourStart (now - (N : Int) * msPerHour) + (i : Int) * msPerHour := by
        simpa using List.find?_some hfind
      have hghour : t.hour = g.1 := by rw [← hgt]; rfl
      apply hno a hamem.1 hfilt
      rw [hak, ← hghour, hthour, ← hhour']
    | none =>
      rw [hfind] at hs
      simp only [Option.some_inj] at hs
      rw [← hs, ← hhour']
      rfl

/-- C3 witness: the dense-window statement applied to the empty event list, a
2-hour window and reference instant 0. -/
theorem hourly_window_dense_spec_witness :
    (calculateHourlySummary [] 2 false 0).length = 2 ∧
    zeroHourly (hourStart (0 - (2 : Int) * msPerHour) + (0 : Int) * msPerHour)
      = zeroHourly (zeroHourly (hourStart (0 - (2 : Int) * msPerHour) + (0 : Int) * msPerHour)).hour :=
  ⟨(hourly_window_dense_spec [] 2 0).1,
   (hourly_window_dense_spec [] 2 0).2.2.2 0
     (zeroHourly (hourStart (0 - (2 : Int) * msPerHour) + (0 : Int) * msPerHour))
     (by decide)
     (by intro e he; simp at he)⟩


/-! ### Session reconstruction invariants -/

/-- Invariant of the `identifySessions` scan loop: closed sessions hold at
most 5 hours and are never ongoing; an open session holds between 1 and 4
hours — exactly the hours of indices from its start to the cursor — and a
session open at the end of the input contains the input's last hour. -/
theorem sessLoop_spec (rest : List HourlySummary) :
    ∀ (i : Nat) (cur : Option (Session × Nat)) (acc : List Session),
    (∀ s ∈ acc, s.hours.length ≤ 5 ∧ s.isOngoing = false) →
    (∀ s start, cur = some (s, start) →
        s.hours.length = i - start ∧ 1 ≤ i - start ∧ i - start ≤ 4 ∧
        s.isOngoing = false) →
    (∀ s ∈ (sessLoop rest i cur acc).1, s.hours.length ≤ 5 ∧ s.isOngoing = false) ∧
    (∀ s start, (sessLoop rest i cur acc).2 = some (s, start) →
        s.hours.length = i + rest.length - start ∧ 1 ≤ i + rest.length - start ∧
        i + rest.length - start ≤ 4 ∧ s.isOngoing = false) ∧
    (∀ s start, (sessLoop rest i cur acc).2 = some (s, start) →
        (rest = [] → cur = some (s, start)) ∧
        (rest ≠ [] → ∃ h, rest.getLast? = some h ∧ h ∈ s.hours)) := by
  induction rest with
  | nil =>
    intro i cur acc hacc hopen
    refine ⟨fun s hs => hacc s hs, fun s start hfin => by simpa using hopen s start hfin,
      fun s start hfin => ⟨fun _ => hfin, fun hne => absurd rfl hne⟩⟩
  | cons hour t ih =>
    intro i cur acc hacc hopen
    -- package the four step shapes
    have step :
        ∀ (cur' : Option (Session × Nat)) (acc' : List Session),
        sessLoop (hour :: t) i cur acc = sessLoop t (i + 1) cur' acc' →
        (∀ s ∈ acc', s.hours.length ≤ 5 ∧ s.isOngoing = false) →
        (∀ s start, cur' = some (s, start) →
            s.hours.length = (i + 1) - start ∧ 1 ≤ (i + 1) - start ∧
            (i + 1) - start ≤ 4 ∧ s.isOngoing = false) →
        (∀ s start, cur' = some (s, start) → hour ∈ s.hours) →
        (∀ s ∈ (sessLoop (hour :: t) i cur acc).1,
            s.hours.length ≤ 5 ∧ s.isOngoing = false) ∧
        (∀ s start, (sessLoop (hour :: t) i cur acc).2 = some (s, start) →
            s.hours.length = i + (hour :: t).length - start ∧
            1 ≤ i + (hour :: t).length - start ∧
            i + (hour :: t).length - start ≤ 4 ∧ s.isOngoing = false) ∧
        (∀ s start, (sessLoop (hour :: t) i cur acc).2 = some (s, start) →
            (hour :: t = [] → cur = some (s, start)) ∧
            (hour :: t ≠ [] → ∃ h, (hour :: t).getLast? = some h ∧ h ∈ s.hours)) := by
      intro cur' acc' hred hacc' hopen' hmem'
      obtain ⟨H1, H2, H3⟩ := ih (i + 1) cur' acc' hacc' hopen'
      rw [hred]
      refine ⟨H1, ?_, ?_⟩
      · intro s start hfin
        obtain ⟨ha, hb, hc, hd⟩ := H2 s start hfin
        simp only [List.length_cons] at *
        exact ⟨by omega, by omega, by omega, hd⟩
      · intro s start hfin
        refine ⟨fun habs => absurd habs (by simp), fun _ => ?_⟩
        obtain ⟨Ha, Hb⟩ := H3 s start hfin
        cases t with
        | nil =>
          have hcur := Ha rfl
          exact ⟨hour, by simp, hmem' s start hcur⟩
        | cons x t' =>
          obtain ⟨h, hlast, hm⟩ := Hb (by simp)
          exact ⟨h, by simpa using hlast, hm⟩
    cases cur with
    | none =>
      by_cases hc : 0 < hour.cost
      · refine step
          (some ({ startHour := hour.hourLabel
                   endHour := hour.hourLabel
                   hours := [hour]
                   totalCost := 0 + hour.cost
                   date := getDateFromHour hour.hour
                   isOngoing := false }, i)) acc ?_ hacc ?_ ?_
        · simp only [sessLoop, if_pos hc]
          have h5 : ¬ 5 ≤ i - i + 1 := by omega
          simp [h5]
        · intro s start heq
          simp only [Option.some_inj, Prod.mk.injEq] at heq
          obtain ⟨hs, hstart⟩ := heq
          subst hstart
          rw [← hs]
          refine ⟨by simp only [List.length_singleton]; omega, by omega, by omega, rfl⟩
        · intro s start heq
          simp only [Option.some_inj, Prod.mk.injEq] at heq
          rw [← heq.1]
          simp
      · refine step none acc ?_ hacc (fun s start h => by cases h) (fun s start h => by cases h)
        simp only [sessLoop, if_neg hc]
    | some sp =>
      rcases sp with ⟨s0, start0⟩
      obtain ⟨hlen0, hge0, hle0, hong0⟩ := hopen s0 start0 rfl
      by_cases hc : 0 < hour.cost
      · by_cases h5 : 5 ≤ i - start0 + 1
        · -- close with the pushed hour
          refine step none
            (acc ++ [{ s0 with
                       hours := s0.hours ++ [hour]
                       totalCost := s0.totalCost + hour.cost
                       endHour := hour.hourLabel }]) ?_ ?_
            (fun s start h => by cases h) (fun s start h => by cases h)
          · simp only [sessLoop, if_pos hc, if_pos h5]
          · intro s hs
            rcases List.mem_append.mp hs with hs | hs
            · exact hacc s hs
            · simp only [List.mem_singleton] at hs
              subst hs
              refine ⟨?_, hong0⟩
              simp only [List.length_append, List.length_singleton, hlen0]
              omega
        · -- extend and stay open
          refine step
            (some ({ s0 with
                     hours := s0.hours ++ [hour]
                     totalCost := s0.totalCost + hour.cost
                     endHour := hour.hourLabel }, start0)) acc ?_ hacc ?_ ?_
          · simp only [sessLoop, if_pos hc, if_neg h5]
          · intro s start heq
            simp only [Option.some_inj, Prod.mk.injEq] at heq
            obtain ⟨hs, hstart⟩ := heq
            subst hstart
            rw [← hs]
            refine ⟨?_, by omega, by omega, hong0⟩
            simp only [List.length_append, List.length_singleton, hlen0]
            omega
          · intro s start heq
            simp only [Option.some_inj, Prod.mk.injEq] at heq
            rw [← heq.1]
            simp
      · have hin : i - start0 < 5 := by omega
        by_cases h5 : 5 ≤ i - start0 + 1
        · refine step none
            (acc ++ [{ s0 with
                       hours := s0.hours ++ [hour]
                       endHour := hour.hourLabel }]) ?_ ?_
            (fun s start h => by cases h) (fun s start h => by cases h)
          · simp only [sessLoop, if_neg hc, if_pos hin, if_pos h5]
          · intro s hs
            rcases List.mem_append.mp hs with hs | hs
            · exact hacc s hs
            · simp only [List.mem_singleton] at hs
              subst hs
              refine ⟨?_, hong0⟩
              simp only [List.length_append, List.length_singleton, hlen0]
              omega
        · refine step
            (some ({ s0 with
                     hours := s0.hours ++ [hour]
                     endHour := hour.hourLabel }, start0)) acc ?_ hacc ?_ ?_
          · simp only [sessLoop, if_neg hc, if_pos hin, if_neg h5]
          · intro s start heq
            simp only [Option.some_inj, Prod.mk.injEq] at heq
            obtain ⟨hs, hstart⟩ := heq
            subst hstart
            rw [← hs]
            refine ⟨?_, by omega, by omega, hong0⟩
            simp only [List.length_append, List.length_singleton, hlen0]
            omega
          · intro s start heq
            simp only [Option.some_inj, Prod.mk.injEq] at heq
            rw [← heq.1]
            simp

theorem markOngoing_hours (d : List HourlySummary) (s : Session) :
    (markOngoing d s).hours = s.hours := by
  unfold markOngoing
  cases h : d.getLast? with
  | none => rfl
  | some lh => dsimp only; split_ifs <;> rfl

theorem markOngoing_totalCost (d : List HourlySummary) (s : Session) :
    (markOngoing d s).totalCost = s.totalCost := by
  unfold markOngoing
  cases h : d.getLast? with
  | none => rfl
  | some lh => dsimp only; split_ifs <;> rfl

theorem markOngoing_ongoing (d : List HourlySummary) (s : Session)
    (h : (markOngoing d s).isOngoing = true) :
    s.isOngoing = true ∨
      (s.hours.length < 5 ∧ ∃ lh, d.getLast? = some lh ∧ lh ∈ s.hours) := by
  unfold markOngoing at h
  cases hl : d.getLast? with
  | none => rw [hl] at h; exact Or.inl h
  | some lh =>
    rw [hl] at h
    dsimp only at h
    by_cases hm : lh ∈ s.hours
    · rw [if_pos hm] at h
      by_cases hlt : s.hours.length < 5
      · exact Or.inr ⟨hlt, lh, rfl, hm⟩
      · rw [if_neg hlt] at h
        exact Or.inl h
    · rw [if_neg hm] at h
      exact Or.inl h

/-- C4.  Session reconstruction never produces a session with more than 5
member hours. -/
theorem identifySessions_max_five (hourlyData : List HourlySummary) (s : Session)
    (hs : s ∈ identifySessions hourlyData) : s.hours.length ≤ 5 := by
  obtain ⟨SP1, SP2, SP3⟩ := sessLoop_spec hourlyData 0 none []
    (by intro s hs; cases hs) (by intro s st h; cases h)
  rcases hloop : sessLoop hourlyData 0 none [] with ⟨acc, cur⟩
  rw [hloop] at SP1 SP2
  simp only [identifySessions, hloop, List.mem_reverse] at hs
  cases cur with
  | none => exact (SP1 s hs).1
  | some sp =>
    rcases sp with ⟨s0, start0⟩
    obtain ⟨hl, hge, hle, hoff⟩ := SP2 s0 start0 rfl
    dsimp only at hs
    by_cases hpos : 0 < s0.hours.length
    · rw [if_pos hpos] at hs
      rcases List.mem_append.mp hs with hmem | hmem
      · exact (SP1 s hmem).1
      · simp only [List.mem_singleton] at hmem
        subst hmem
        rw [markOngoing_hours]
        omega
    · rw [if_neg hpos] at hs
      exact (SP1 s hs).1

/-- C5.  A session is marked `isOngoing` only if it contains the very last
hour of the input and holds fewer than 5 member hours (so every session not
containing the last hour, and every 5-hour session, has `isOngoing = false`);
and a session still open at the end of the scan is flushed into the output
(its hours and total cost appear in some returned session). -/
theorem identifySessions_ongoing_spec (hourlyData : List HourlySummary) :
    (∀ s ∈ identifySessions hourlyData, s.isOngoing = true →
        s.hours.length < 5 ∧ ∃ h, hourlyData.getLast? = some h ∧ h ∈ s.hours) ∧
    (∀ s start, (sessLoop hourlyData 0 none []).2 = some (s, start) →
        ∃ s', s' ∈ identifySessions hourlyData ∧ s'.hours = s.hours ∧
          s'.totalCost = s.totalCost) := by
  obtain ⟨SP1, SP2, SP3⟩ := sessLoop_spec hourlyData 0 none []
    (by intro s hs; cases hs) (by intro s st h; cases h)
  rcases hloop : sessLoop hourlyData 0 none [] with ⟨acc, cur⟩
  rw [hloop] at SP1 SP2
  constructor
  · intro s hs hong
    simp only [identifySessions, hloop, List.mem_reverse] at hs
    cases cur with
    | none => exact absurd hong (by rw [(SP1 s hs).2]; simp)
    | some sp =>
      rcases sp with ⟨s0, start0⟩
      obtain ⟨hl, hge, hle, hoff⟩ := SP2 s0 start0 rfl
      dsimp only at hs
      by_cases hpos : 0 < s0.hours.length
      · rw [if_pos hpos] at hs
        rcases List.mem_append.mp hs with hmem | hmem
        · exact absurd hong (by rw [(SP1 s hmem).2]; simp)
        · simp only [List.mem_singleton] at hmem
          subst hmem
          rcases markOngoing_ongoing hourlyData s0 hong with hcontra | hok
          · rw [hoff] at hcontra
            cases hcontra
          · obtain ⟨hlt, lh, hlast, hm⟩ := hok
            rw [markOngoing_hours]
            exact ⟨hlt, lh, hlast, hm⟩
      · rw [if_neg hpos] at hs
        exact absurd hong (by rw [(SP1 s hs).2]; simp)
  · intro s start hfin
    have hcur : cur = some (s, start) := hfin
    subst hcur
    obtain ⟨hl, hge, hle, hoff⟩ := SP2 s start rfl
    have hpos : 0 < s.hours.length := by omega
    refine ⟨markOngoing hourlyData s, ?_, markOngoing_hours _ _, markOngoing_totalCost _ _⟩
    simp only [identifySessions, hloop, List.mem_reverse]
    rw [if_pos hpos]
    exact List.mem_append.mpr (Or.inr (by simp))

/-- C4 witness: the one-hour input yields one (ongoing) one-hour session. -/
theorem identifySessions_max_five_witness :
    (⟨0, 0, [⟨0, 0, ⟨0, 0, 0, 0⟩, 1, 1⟩], 1, 0, true⟩ : Session).hours.length ≤ 5 :=
  identifySessions_max_five [⟨0, 0, ⟨0, 0, 0, 0⟩, 1, 1⟩]
    ⟨0, 0, [⟨0, 0, ⟨0, 0, 0, 0⟩, 1, 1⟩], 1, 0, true⟩
    (by norm_num [identifySessions, sessLoop, markOngoing, getDateFromHour, formatDate,
      msPerDay, List.getLast?])

/-- C5 witness: the flush conjunct applied to the one-hour input, whose scan
ends with an open one-hour session. -/
theorem identifySessions_ongoing_spec_witness :
    ∃ s', s' ∈ identifySessions [⟨0, 0, ⟨0, 0, 0, 0⟩, 1, 1⟩] ∧
      s'.hours = (⟨0, 0, [⟨0, 0, ⟨0, 0, 0, 0⟩, 1, 1⟩], 1, 0, false⟩ : Session).hours ∧
      s'.totalCost = (⟨0, 0, [⟨0, 0, ⟨0, 0, 0, 0⟩, 1, 1⟩], 1, 0, false⟩ : Session).totalCost :=
  (identifySessions_ongoing_spec [⟨0, 0, ⟨0, 0, 0, 0⟩, 1, 1⟩]).2
    ⟨0, 0, [⟨0, 0, ⟨0, 0, 0, 0⟩, 1, 1⟩], 1, 0, false⟩ 0
    (by norm_num [sessLoop, getDateFromHour, formatDate, msPerDay])

/-! ### The today fallback of aggregateUsageData -/


/-- The most recent calendar day present in the data, stated from the claim's
words for comparison with the code's fallback path. -/
def specMostRecentDataDay : List UsageEntry → Int
  | [] => 0
  | e :: rest => rest.foldl (fun d x => max d (formatDate x.timestamp)) (formatDate e.timestamp)

theorem foldl_if_max_spec (rest : List UsageEntry) :
    ∀ (e : UsageEntry),
      (rest.foldl (fun latest x => if latest.timestamp < x.timestamp then x else latest) e)
          ∈ e :: rest ∧
      e.timestamp ≤ (rest.foldl
          (fun latest x => if latest.timestamp < x.timestamp then x else latest) e).timestamp ∧
      ∀ x ∈ rest, x.timestamp ≤ (rest.foldl
          (fun latest x => if latest.timestamp < x.timestamp then x else latest) e).timestamp := by
  induction rest with
  | nil => intro e; exact ⟨List.mem_cons_self e [], le_refl _, by intro x hx; cases hx⟩
  | cons y t ih =>
    intro e
    by_cases hc : e.timestamp < y.timestamp
    · have hfold : (y :: t).foldl
          (fun latest x => if latest.timestamp < x.timestamp then x else latest) e
          = t.foldl (fun latest x => if latest.timestamp < x.timestamp then x else latest) y := by
        simp only [List.foldl_cons, if_pos hc]
      rw [hfold]
      obtain ⟨hmem, hbound, hall⟩ := ih y
      refine ⟨?_, le_trans (le_of_lt hc) hbound, ?_⟩
      · rcases List.mem_cons.mp hmem with h | h
        · exact List.mem_cons.mpr (Or.inr (List.mem_cons.mpr (Or.inl h)))
        · exact List.mem_cons.mpr (Or.inr (List.mem_cons.mpr (Or.inr h)))
      · intro x hx
        rcases List.mem_cons.mp hx with h | h
        · subst h; exact hbound
        · exact hall x h
    · have hfold : (y :: t).foldl
          (fun latest x => if latest.timestamp < x.timestamp then x else latest) e
          = t.foldl (fun latest x => if latest.timestamp < x.timestamp then x else latest) e := by
        simp only [List.foldl_cons, if_neg hc]
      rw [hfold]
      obtain ⟨hmem, hbound, hall⟩ := ih e
      refine ⟨?_, hbound, ?_⟩
      · rcases List.mem_cons.mp hmem with h | h
        · exact List.mem_cons.mpr (Or.inl h)
        · exact List.mem_cons.mpr (Or.inr (List.mem_cons.mpr (Or.inr h)))
      · intro x hx
        rcases List.mem_cons.mp hx with h | h
        · subst h; exact le_trans (le_of_not_lt hc) hbound
        · exact hall x h

theorem mostRecent?_spec (entries : List UsageEntry) (m : UsageEntry)
    (h : mostRecent? entries = some m) :
    m ∈ entries ∧ ∀ e ∈ entries, e.timestamp ≤ m.timestamp := by
  cases entries with
  | nil => cases h
  | cons e rest =>
    simp only [mostRecent?, Option.some_inj] at h
    obtain ⟨hmem, hbound, hall⟩ := foldl_if_max_spec rest e
    subst h
    refine ⟨hmem, ?_⟩
    intro x hx
    rcases List.mem_cons.mp hx with h | h
    · subst h; exact hbound
    · exact hall x h

theorem mostRecent?_eq_none (entries : List UsageEntry)
    (h : mostRecent? entries = none) : entries = [] := by
  cases entries with
  | nil => rfl
  | cons e rest => simp [mostRecent?] at h

theorem formatDate_mono {t t' : Int} (h : t ≤ t') : formatDate t ≤ formatDate t' := by
  unfold formatDate
  rw [Int.fdiv_eq_ediv _ (by norm_num [msPerDay]), Int.fdiv_eq_ediv _ (by norm_num [msPerDay])]
  exact Int.ediv_le_ediv (by norm_num [msPerDay]) h

theorem foldl_max_spec (l : List Int) : ∀ (d0 : Int),
    (l.foldl max d0 = d0 ∨ l.foldl max d0 ∈ l) ∧ d0 ≤ l.foldl max d0 ∧
      ∀ x ∈ l, x ≤ l.foldl max d0 := by
  induction l with
  | nil => intro d0; exact ⟨Or.inl rfl, le_refl _, by intro x hx; cases hx⟩
  | cons y t ih =>
    intro d0
    obtain ⟨hmem, hbound, hall⟩ := ih (max d0 y)
    rw [List.foldl_cons]
    refine ⟨?_, le_trans (le_max_left _ _) hbound, ?_⟩
    · rcases hmem with h | h
      · rcases max_choice d0 y with hm | hm
        · exact Or.inl (h.trans hm)
        · exact Or.inr (List.mem_cons.mpr (Or.inl (h.trans hm)))
      · exact Or.inr (List.mem_cons.mpr (Or.inr h))
    · intro x hx
      rcases List.mem_cons.mp hx with h | h
      · subst h; exact le_trans (le_max_right _ _) hbound
      · exact hall x h

theorem specMostRecentDataDay_spec (entries : List UsageEntry) (hne : entries ≠ []) :
    specMostRecentDataDay entries ∈ entries.map (fun e => formatDate e.timestamp) ∧
    ∀ d ∈ entries.map (fun e => formatDate e.timestamp),
      d ≤ specMostRecentDataDay entries := by
  cases entries with
  | nil => exact absurd rfl hne
  | cons e rest =>
    have hconv : specMostRecentDataDay (e :: rest)
        = (rest.map (fun x => formatDate x.timestamp)).foldl max (formatDate e.timestamp) := by
      simp only [specMostRecentDataDay, List.foldl_map]
    obtain ⟨hmem, hbound, hall⟩ :=
      foldl_max_spec (rest.map (fun x => formatDate x.timestamp)) (formatDate e.timestamp)
    rw [hconv]
    constructor
    · rcases hmem with h | h
      · rw [h, List.map_cons]
        exact List.mem_cons.mpr (Or.inl rfl)
      · rw [List.map_cons]
        exact List.mem_cons.mpr (Or.inr h)
    · intro d hd
      rw [List.map_cons] at hd
      rcases List.mem_cons.mp hd with h | h
      · subst h; exact hbound
      · exact hall d h

theorem dedupFirst_mem_aux {α : Type} [DecidableEq α] (l : List α) :
    ∀ (acc : List α) (x : α),
      (x ∈ l.foldl (fun acc a => if a ∈ acc then acc else acc ++ [a]) acc ↔
        x ∈ acc ∨ x ∈ l) := by
  induction l with
  | nil => intro acc x; simp
  | cons y t ih =>
    intro acc x
    rw [List.foldl_cons]
    by_cases hy : y ∈ acc
    · rw [if_pos hy, ih]
      constructor
      · rintro (h | h)
        · exact Or.inl h
        · exact Or.inr (List.mem_cons.mpr (Or.inr h))
      · rintro (h | h)
        · exact Or.inl h
        · rcases List.mem_cons.mp h with h' | h'
          · exact Or.inl (h' ▸ hy)
          · exact Or.inr h'
    · rw [if_neg hy, ih]
      constructor
      · rintro (h | h)
        · rcases List.mem_append.mp h with h' | h'
          · exact Or.inl h'
          · simp only [List.mem_singleton] at h'
            exact Or.inr (List.mem_cons.mpr (Or.inl h'))
        · exact Or.inr (List.mem_cons.mpr (Or.inr h))
      · rintro (h | h)
        · exact Or.inl (List.mem_append.mpr (Or.inl h))
        · rcases List.mem_cons.mp h with h' | h'
          · exact Or.inl (List.mem_append.mpr (Or.inr (by simp [h'])))
          · exact Or.inr h'

theorem dedupFirst_mem {α : Type} [DecidableEq α] (l : List α) (x : α) :
    x ∈ dedupFirst l ↔ x ∈ l := by
  rw [dedupFirst, dedupFirst_mem_aux]
  simp

theorem sorted_le_getLast? {l : List Int} (hs : l.Sorted (fun a b => a ≤ b)) {d : Int}
    (hd : l.getLast? = some d) : ∀ x ∈ l, x ≤ d := by
  induction l with
  | nil => cases hd
  | cons a t ih =>
    intro x hx
    cases t with
    | nil =>
      simp only [List.getLast?_singleton, Option.some_inj] at hd
      simp only [List.mem_singleton] at hx
      rw [hx, hd]
    | cons b t' =>
      rw [List.getLast?_cons_cons] at hd
      have hsorted := (List.sorted_cons.mp hs)
      rcases List.mem_cons.mp hx with h | h
      · subst h
        have hdm : d ∈ b :: t' := List.mem_of_getLast?_eq_some hd
        exact hsorted.1 d hdm
      · exact ih hsorted.2 hd x h

theorem mostRecentDataDate?_spec (entries : List UsageEntry) (d : Int)
    (h : mostRecentDataDate? entries = some d) :
    d ∈ entries.map (fun e => formatDate e.timestamp) ∧
    ∀ x ∈ entries.map (fun e => formatDate e.timestamp), x ≤ d := by
  unfold mostRecentDataDate? at h
  rw [List.head?_reverse] at h
  have hsorted : ((dedupFirst (entries.map (fun e => formatDate e.timestamp))).insertionSort
      (fun a b => a ≤ b)).Sorted (fun a b => a ≤ b) :=
    List.sorted_insertionSort _ _
  have hperm := List.perm_insertionSort (fun a b : Int => a ≤ b)
    (dedupFirst (entries.map (fun e => formatDate e.timestamp)))
  constructor
  · have hdm := List.mem_of_getLast?_eq_some h
    exact (dedupFirst_mem _ _).mp (hperm.mem_iff.mp hdm)
  · intro x hx
    have hx' : x ∈ (dedupFirst (entries.map (fun e => formatDate e.timestamp))).insertionSort
        (fun a b => a ≤ b) := hperm.mem_iff.mpr ((dedupFirst_mem _ _).mpr hx)
    exact sorted_le_getLast? hsorted h x hx'

theorem mostRecentDataDate?_eq_none (entries : List UsageEntry)
    (h : mostRecentDataDate? entries = none) : entries = [] := by
  cases hes : entries with
  | nil => rfl
  | cons e rest =>
    subst hes
    unfold mostRecentDataDate? at h
    rw [List.head?_reverse] at h
    rw [List.getLast?_eq_none_iff] at h
    have : formatDate e.timestamp ∈ (dedupFirst
        ((e :: rest).map (fun x => formatDate x.timestamp))).insertionSort
        (fun a b => a ≤ b) := by
      refine (List.perm_insertionSort _ _).mem_iff.mpr ?_
      rw [dedupFirst_mem]
      simp
    rw [h] at this
    cases this

theorem formatDate_mostRecent_eq_spec (entries : List UsageEntry) (m : UsageEntry)
    (hne : entries ≠ []) (hm : mostRecent? entries = some m) :
    formatDate m.timestamp = specMostRecentDataDay entries := by
  obtain ⟨hmem, hub⟩ := mostRecent?_spec entries m hm
  obtain ⟨hsm, hsub⟩ := specMostRecentDataDay_spec entries hne
  apply le_antisymm
  · exact hsub _ (List.mem_map_of_mem _ hmem)
  · obtain ⟨e, he, hfe⟩ := List.mem_map.mp hsm
    rw [← hfe]
    exact formatDate_mono (hub e he)

theorem filter_specDay_ne_nil (entries : List UsageEntry) (hne : entries ≠ []) :
    entries.filter (fun e => formatDate e.timestamp == specMostRecentDataDay entries) ≠ [] := by
  obtain ⟨hsm, _⟩ := specMostRecentDataDay_spec entries hne
  obtain ⟨e, he, hfe⟩ := List.mem_map.mp hsm
  intro hnil
  have : e ∈ entries.filter
      (fun e => formatDate e.timestamp == specMostRecentDataDay entries) :=
    List.mem_filter.mpr ⟨he, by simp [hfe]⟩
  rw [hnil] at this
  cases this

theorem effectiveToday_fallback (entries : List UsageEntry) (sysNow : Int)
    (hne : entries ≠ [])
    (hnotoday : ∀ e ∈ entries, formatDate e.timestamp ≠ formatDate sysNow) :
    effectiveTodayEntriesOf entries sysNow
      = entries.filter (fun e => formatDate e.timestamp == specMostRecentDataDay entries) := by
  unfold effectiveTodayEntriesOf todayKeyOf
  cases hmr : mostRecent? entries with
  | none => exact absurd (mostRecent?_eq_none _ hmr) hne
  | some m =>
    have hspec := formatDate_mostRecent_eq_spec entries m hne hmr
    dsimp only
    by_cases hy : 1 ≤ (yearOf sysNow - yearOf m.timestamp).natAbs
    · rw [if_pos hy]
      have hmem := (mostRecent?_spec entries m hmr).1
      have hmf : m ∈ entries.filter
          (fun e => formatDate e.timestamp == formatDate m.timestamp) :=
        List.mem_filter.mpr ⟨hmem, by simp⟩
      have hcond : ¬ ((entries.filter
          (fun e => formatDate e.timestamp == formatDate m.timestamp)).isEmpty
            ∧ ¬ entries.isEmpty) := by
        intro hco
        have := hco.1
        rw [List.isEmpty_iff] at this
        rw [this] at hmf
        cases hmf
      rw [if_neg hcond, hspec]
    · rw [if_neg hy]
      have htoday : entries.filter
          (fun e => formatDate e.timestamp == formatDate sysNow) = [] := by
        rw [List.filter_eq_nil_iff]
        intro e he
        simpa using hnotoday e he
      rw [htoday]
      have hcond : (([] : List UsageEntry).isEmpty ∧ ¬ entries.isEmpty) := by
        constructor
        · rfl
        · rw [List.isEmpty_iff]
          exact hne
      rw [if_pos hcond]
      cases hdd : mostRecentDataDate? entries with
      | none => exact absurd (mostRecentDataDate?_eq_none _ hdd) hne
      | some d =>
        have hd := mostRecentDataDate?_spec entries d hdd
        obtain ⟨hsm, hsub⟩ := specMostRecentDataDay_spec entries hne
        have : d = specMostRecentDataDay entries :=
          le_antisymm (hsub d hd.1) (hd.2 _ hsm)
        rw [this]

/-- C6.  When the event list is non-empty and no event falls on the system's
current calendar date, the aggregate bundle computes the today-hourly series
from the entries of the most recent date actually present in the data: the
effective today-entries equal exactly those entries, they are non-empty (no
silently empty today view), and `todayHourly` is the today pipeline applied
to them. -/
theorem aggregate_today_fallback (entries : List UsageEntry) (sysNow : Int)
    (hne : entries ≠ [])
    (hnotoday : ∀ e ∈ entries, formatDate e.timestamp ≠ formatDate sysNow) :
    effectiveTodayEntriesOf entries sysNow
        = entries.filter (fun e => formatDate e.timestamp == specMostRecentDataDay entries) ∧
    effectiveTodayEntriesOf entries sysNow ≠ [] ∧
    (aggregateUsageData entries sysNow).todayHourly
        = patchCurrentHour
            (calculateHourlySummary (effectiveTodayEntriesOf entries sysNow) 24 true sysNow)
            (effectiveTodayEntriesOf entries sysNow) sysNow := by
  have heq := effectiveToday_fallback entries sysNow hne hnotoday
  refine ⟨heq, ?_, rfl⟩
  rw [heq]
  exact filter_specDay_ne_nil entries hne

/-- C6 witness: one event on 1970-01-01 with the system clock one day later;
the fallback selects that event's day. -/
theorem aggregate_today_fallback_witness :
    effectiveTodayEntriesOf [⟨0, ⟨0, 0, 0, 0⟩, 1, "p", "s"⟩] msPerDay ≠ [] :=
  (aggregate_today_fallback [⟨0, ⟨0, 0, 0, 0⟩, 1, "p", "s"⟩] msPerDay
    (by simp)
    (by
      intro e he
      simp only [List.mem_singleton] at he
      subst he
      decide)).2.1


/-! ### Double counting in the current running-session cost -/

/-- C7 failing input.  The today-hourly series holds the hour 00:00 with cost
1 (one entry), "now" is 00:30, and the live entry list holds the same
single $1 entry at 00:15 — activity already folded into the series, as the
series hour key equals the entry's hour start.  The code returns 2: it adds
the current-hour live cost unconditionally, counting the $1 twice, where the
spec requires adding only activity not yet folded into the series (expected
total 1). -/
theorem currentSessionCost_double_count :
    calculateCurrentSessionCost [⟨0, 0, ⟨0, 0, 0, 0⟩, 1, 1⟩] 1800000
        (some [⟨900000, ⟨0, 0, 0, 0⟩, 1, "p", "s"⟩]) = 2 ∧
    (([(⟨0, 0, ⟨0, 0, 0, 0⟩, 1, 1⟩ : HourlySummary)].map (fun h => h.cost)).sum = 1) ∧
    (getCurrentHourEntries [⟨900000, ⟨0, 0, 0, 0⟩, 1, "p", "s"⟩] (some 1800000) 1800000
      = [⟨900000, ⟨0, 0, 0, 0⟩, 1, "p", "s"⟩]) ∧
    hourStart 900000 = (⟨0, 0, ⟨0, 0, 0, 0⟩, 1, 1⟩ : HourlySummary).hour := by
  refine ⟨?_, by norm_num, ?_, by decide⟩
  · norm_num [calculateCurrentSessionCost, getCurrentHourEntries, hourStart, msPerHour,
      lastActiveIndex?, costAt, hourAt, backLoop, includeInSession, hasActivityAfter,
      hasActivityBefore, sumCost, List.range, List.find?,
      (by decide : Int.fdiv 1800000 3600000 = 0)]
  · norm_num [getCurrentHourEntries, hourStart, msPerHour,
      (by decide : Int.fdiv 1800000 3600000 = 0)]

/-! ### Order-insensitivity of the bucketing functions -/


theorem dedupFirst_nodup_aux {α : Type} [DecidableEq α] (l : List α) :
    ∀ (acc : List α), acc.Nodup →
      (l.foldl (fun acc a => if a ∈ acc then acc else acc ++ [a]) acc).Nodup := by
  induction l with
  | nil => intro acc h; exact h
  | cons y t ih =>
    intro acc h
    rw [List.foldl_cons]
    by_cases hy : y ∈ acc
    · rw [if_pos hy]; exact ih acc h
    · rw [if_neg hy]
      refine ih _ ?_
      rw [List.nodup_append]
      exact ⟨h, List.nodup_singleton y, by simpa using hy⟩

theorem dedupFirst_nodup {α : Type} [DecidableEq α] (l : List α) :
    (dedupFirst l).Nodup :=
  dedupFirst_nodup_aux l [] List.nodup_nil

theorem dedupFirst_append_singleton {α : Type} [DecidableEq α] (l : List α) (x : α) :
    dedupFirst (l ++ [x]) =
      if x ∈ dedupFirst l then dedupFirst l else dedupFirst l ++ [x] := by
  unfold dedupFirst
  rw [List.foldl_append]
  rfl

theorem insertGroup_not_mem {κ α : Type} [DecidableEq κ]
    (m : List (κ × List α)) (k : κ) (a : α) (h : k ∉ m.map Prod.fst) :
    insertGroup m k a = m ++ [(k, [a])] := by
  induction m with
  | nil => rfl
  | cons g rest ih =>
    rcases g with ⟨k0, v0⟩
    rw [List.map_cons] at h
    have hk0 : k0 ≠ k := fun hc => h (List.mem_cons.mpr (Or.inl hc.symm))
    have hrest : k ∉ rest.map Prod.fst := fun hc => h (List.mem_cons.mpr (Or.inr hc))
    show (if k0 = k then (k0, v0 ++ [a]) :: rest else (k0, v0) :: insertGroup rest k a)
        = (k0, v0) :: rest ++ [(k, [a])]
    rw [if_neg hk0, ih hrest]
    rfl

theorem insertGroup_update {κ α : Type} [DecidableEq κ]
    (ks : List κ) (f : κ → List α) (k : κ) (a : α) (hnd : ks.Nodup) (hmem : k ∈ ks) :
    insertGroup (ks.map (fun k' => (k', f k'))) k a
      = ks.map (fun k' => (k', if k' = k then f k' ++ [a] else f k')) := by
  induction ks with
  | nil => cases hmem
  | cons k0 t ih =>
    rw [List.map_cons, List.map_cons]
    by_cases hk : k0 = k
    · subst hk
      show (if k0 = k0 then (k0, f k0 ++ [a]) :: t.map (fun k' => (k', f k'))
          else (k0, f k0) :: insertGroup (t.map (fun k' => (k', f k'))) k0 a)
          = (k0, if k0 = k0 then f k0 ++ [a] else f k0) ::
            t.map (fun k' => (k', if k' = k0 then f k' ++ [a] else f k'))
      rw [if_pos rfl, if_pos rfl]
      have hnot : k0 ∉ t := (List.nodup_cons.mp hnd).1
      congr 1
      refine (List.map_congr_left ?_).symm
      intro x hx
      have : x ≠ k0 := fun hc => hnot (hc ▸ hx)
      rw [if_neg this]
    · have hmem' : k ∈ t := by
        rcases List.mem_cons.mp hmem with h | h
        · exact absurd h.symm hk
        · exact h
      show (if k0 = k then (k0, f k0 ++ [a]) :: t.map (fun k' => (k', f k'))
          else (k0, f k0) :: insertGroup (t.map (fun k' => (k', f k'))) k a)
          = (k0, if k0 = k then f k0 ++ [a] else f k0) ::
            t.map (fun k' => (k', if k' = k then f k' ++ [a] else f k'))
      rw [if_neg hk, if_neg hk, ih (List.nodup_cons.mp hnd).2 hmem']

theorem groupByKey_append_singleton {κ α : Type} [DecidableEq κ]
    (key : α → κ) (l : List α) (a : α) :
    groupByKey key (l ++ [a]) = insertGroup (groupByKey key l) (key a) a := by
  unfold groupByKey
  rw [List.foldl_append]
  rfl

theorem groupByKey_eq {κ α : Type} [DecidableEq κ] (key : α → κ) (l : List α) :
    groupByKey key l
      = (dedupFirst (l.map key)).map
          (fun k => (k, l.filter (fun x => key x = k))) := by
  induction l using List.reverseRecOn with
  | nil => rfl
  | append_singleton l a ih =>
    rw [groupByKey_append_singleton, ih, List.map_append, List.map_singleton,
      dedupFirst_append_singleton]
    by_cases hmem : key a ∈ dedupFirst (l.map key)
    · rw [if_pos hmem]
      rw [insertGroup_update _ _ _ _ (dedupFirst_nodup _) hmem]
      refine List.map_congr_left ?_
      intro k hk
      by_cases hke : k = key a
      · subst hke
        rw [if_pos rfl]
        congr 1
        rw [List.filter_append]
        simp
      · rw [if_neg hke]
        congr 1
        rw [List.filter_append]
        have : (fun x => decide (key x = k)) a = false := by
          simpa using fun hc => hke (by rw [← hc])
        simp [this]
    · rw [if_neg hmem]
      have hfst : key a ∉ ((dedupFirst (l.map key)).map
          (fun k => (k, l.filter (fun x => key x = k)))).map Prod.fst := by
        rw [List.map_map]
        simpa using hmem
      rw [insertGroup_not_mem _ _ _ hfst, List.map_append]
      congr 1
      · refine List.map_congr_left ?_
        intro k hk
        have hke : k ≠ key a := fun hc => hmem (hc ▸ hk)
        congr 1
        rw [List.filter_append]
        have : (fun x => decide (key x = k)) a = false := by
          simpa using fun hc => hke (by rw [← hc])
        simp [this]
      · rw [List.map_singleton]
        have hfa : l.filter (fun x => key x = key a) = [] := by
          rw [List.filter_eq_nil_iff]
          intro x hx
          simp only [decide_eq_true_eq]
          intro hc
          exact hmem ((dedupFirst_mem _ _).mpr (hc ▸ List.mem_map_of_mem key hx))
        rw [List.filter_append, hfa]
        simp

theorem perm_dedupFirst {α : Type} [DecidableEq α] {l₁ l₂ : List α}
    (hp : List.Perm l₁ l₂) : List.Perm (dedupFirst l₁) (dedupFirst l₂) := by
  rw [List.perm_ext_iff_of_nodup (dedupFirst_nodup l₁) (dedupFirst_nodup l₂)]
  intro a
  rw [dedupFirst_mem, dedupFirst_mem]
  exact hp.mem_iff

theorem sumTokens_foldl (l : List UsageEntry) (t : TokenTotals) :
    l.foldl addEntryTokens t =
      ⟨t.inputTokens + (l.map (fun e => e.usage.input_tokens)).sum,
       t.outputTokens + (l.map (fun e => e.usage.output_tokens)).sum,
       t.cacheCreationTokens + (l.map (fun e => e.usage.cache_creation_input_tokens)).sum,
       t.cacheReadTokens + (l.map (fun e => e.usage.cache_read_input_tokens)).sum⟩ := by
  induction l generalizing t with
  | nil => simp
  | cons e rest ih =>
    rw [List.foldl_cons, ih]
    simp [addEntryTokens, add_assoc]

theorem sumTokens_eq (l : List UsageEntry) :
    sumTokens l =
      ⟨(l.map (fun e => e.usage.input_tokens)).sum,
       (l.map (fun e => e.usage.output_tokens)).sum,
       (l.map (fun e => e.usage.cache_creation_input_tokens)).sum,
       (l.map (fun e => e.usage.cache_read_input_tokens)).sum⟩ := by
  simp [sumTokens, sumTokens_foldl, zeroTokens]

theorem sumTokens_perm {l₁ l₂ : List UsageEntry} (hp : List.Perm l₁ l₂) :
    sumTokens l₁ = sumTokens l₂ := by
  rw [sumTokens_eq, sumTokens_eq,
    (hp.map (fun e => e.usage.input_tokens)).sum_eq,
    (hp.map (fun e => e.usage.output_tokens)).sum_eq,
    (hp.map (fun e => e.usage.cache_creation_input_tokens)).sum_eq,
    (hp.map (fun e => e.usage.cache_read_input_tokens)).sum_eq]

theorem sumCost_perm {l₁ l₂ : List UsageEntry} (hp : List.Perm l₁ l₂) :
    sumCost l₁ = sumCost l₂ := by
  rw [sumCost_eq, sumCost_eq, (hp.map (fun e => e.costUSD)).sum_eq]

theorem sessionMinTs_spec (g : List UsageEntry) :
    ∀ (init : Int),
      sessionMinTs g init ≤ init ∧ (∀ x ∈ g, sessionMinTs g init ≤ x.timestamp) ∧
      (sessionMinTs g init = init ∨ sessionMinTs g init ∈ g.map (fun e => e.timestamp)) := by
  induction g with
  | nil => intro init; exact ⟨le_refl _, (by intro x hx; cases hx), Or.inl rfl⟩
  | cons y t ih =>
    intro init
    have hstep : sessionMinTs (y :: t) init
        = sessionMinTs t (if y.timestamp < init then y.timestamp else init) := rfl
    obtain ⟨hle, hall, hmem⟩ := ih (if y.timestamp < init then y.timestamp else init)
    rw [hstep]
    have hstep_le : (if y.timestamp < init then y.timestamp else init) ≤ init ∧
        (if y.timestamp < init then y.timestamp else init) ≤ y.timestamp := by
      by_cases h : y.timestamp < init
      · rw [if_pos h]; exact ⟨le_of_lt h, le_refl _⟩
      · rw [if_neg h]; exact ⟨le_refl _, le_of_not_lt h⟩
    refine ⟨le_trans hle hstep_le.1, ?_, ?_⟩
    · intro x hx
      rcases List.mem_cons.mp hx with h | h
      · subst h; exact le_trans hle hstep_le.2
      · exact hall x h
    · rcases hmem with h | h
      · by_cases hc : y.timestamp < init
        · rw [if_pos hc] at h ⊢
          exact Or.inr (by rw [List.map_cons]; exact List.mem_cons.mpr (Or.inl h))
        · rw [if_neg hc] at h ⊢
          exact Or.inl h
      · exact Or.inr (by rw [List.map_cons]; exact List.mem_cons.mpr (Or.inr h))

theorem sessionMaxTs_spec (g : List UsageEntry) :
    ∀ (init : Int),
      init ≤ sessionMaxTs g init ∧ (∀ x ∈ g, x.timestamp ≤ sessionMaxTs g init) ∧
      (sessionMaxTs g init = init ∨ sessionMaxTs g init ∈ g.map (fun e => e.timestamp)) := by
  induction g with
  | nil => intro init; exact ⟨le_refl _, (by intro x hx; cases hx), Or.inl rfl⟩
  | cons y t ih =>
    intro init
    have hstep : sessionMaxTs (y :: t) init
        = sessionMaxTs t (if init < y.timestamp then y.timestamp else init) := rfl
    obtain ⟨hle, hall, hmem⟩ := ih (if init < y.timestamp then y.timestamp else init)
    rw [hstep]
    have hstep_le : init ≤ (if init < y.timestamp then y.timestamp else init) ∧
        y.timestamp ≤ (if init < y.timestamp then y.timestamp else init) := by
      by_cases h : init < y.timestamp
      · rw [if_pos h]; exact ⟨le_of_lt h, le_refl _⟩
      · rw [if_neg h]; exact ⟨le_refl _, le_of_not_lt h⟩
    refine ⟨le_trans hstep_le.1 hle, ?_, ?_⟩
    · intro x hx
      rcases List.mem_cons.mp hx with h | h
      · subst h; exact le_trans hstep_le.2 hle
      · exact hall x h
    · rcases hmem with h | h
      · by_cases hc : init < y.timestamp
        · rw [if_pos hc] at h ⊢
          exact Or.inr (by rw [List.map_cons]; exact List.mem_cons.mpr (Or.inl h))
        · rw [if_neg hc] at h ⊢
          exact Or.inl h
      · exact Or.inr (by rw [List.map_cons]; exact List.mem_cons.mpr (Or.inr h))

theorem sessionMinTs_head_perm {g₁ g₂ : List UsageEntry} (hp : List.Perm g₁ g₂) :
    sessionMinTs g₁ (((g₁.head?).map (fun e => e.timestamp)).getD 0)
      = sessionMinTs g₂ (((g₂.head?).map (fun e => e.timestamp)).getD 0) := by
  cases g₁ with
  | nil =>
    have h2 : g₂ = [] := hp.nil_eq.symm
    rw [h2]
  | cons e₁ t₁ =>
    cases g₂ with
    | nil => exact absurd hp.symm.nil_eq.symm (by simp)
    | cons e₂ t₂ =>
      obtain ⟨h1le, h1all, h1mem⟩ := sessionMinTs_spec (e₁ :: t₁) e₁.timestamp
      obtain ⟨h2le, h2all, h2mem⟩ := sessionMinTs_spec (e₂ :: t₂) e₂.timestamp
      have h1in : sessionMinTs (e₁ :: t₁) e₁.timestamp
          ∈ (e₁ :: t₁).map (fun e => e.timestamp) := by
        rcases h1mem with h | h
        · rw [h, List.map_cons]; exact List.mem_cons.mpr (Or.inl rfl)
        · exact h
      have h2in : sessionMinTs (e₂ :: t₂) e₂.timestamp
          ∈ (e₂ :: t₂).map (fun e => e.timestamp) := by
        rcases h2mem with h | h
        · rw [h, List.map_cons]; exact List.mem_cons.mpr (Or.inl rfl)
        · exact h
      have hmp := hp.map (fun e => e.timestamp)
      apply le_antisymm
      · obtain ⟨x, hx, hxe⟩ := List.mem_map.mp (hmp.mem_iff.mpr h2in)
        rw [show (((e₁ :: t₁).head?).map (fun e => e.timestamp)).getD 0 = e₁.timestamp
          from rfl, show (((e₂ :: t₂).head?).map (fun e => e.timestamp)).getD 0 = e₂.timestamp
          from rfl]
        rw [← hxe]
        exact h1all x hx
      · obtain ⟨x, hx, hxe⟩ := List.mem_map.mp (hmp.mem_iff.mp h1in)
        rw [show (((e₁ :: t₁).head?).map (fun e => e.timestamp)).getD 0 = e₁.timestamp
          from rfl, show (((e₂ :: t₂).head?).map (fun e => e.timestamp)).getD 0 = e₂.timestamp
          from rfl]
        rw [← hxe]
        exact h2all x hx

theorem sessionMaxTs_head_perm {g₁ g₂ : List UsageEntry} (hp : List.Perm g₁ g₂) :
    sessionMaxTs g₁ (((g₁.head?).map (fun e => e.timestamp)).getD 0)
      = sessionMaxTs g₂ (((g₂.head?).map (fun e => e.timestamp)).getD 0) := by
  cases g₁ with
  | nil =>
    have h2 : g₂ = [] := hp.nil_eq.symm
    rw [h2]
  | cons e₁ t₁ =>
    cases g₂ with
    | nil => exact absurd hp.symm.nil_eq.symm (by simp)
    | cons e₂ t₂ =>
      obtain ⟨h1le, h1all, h1mem⟩ := sessionMaxTs_spec (e₁ :: t₁) e₁.timestamp
      obtain ⟨h2le, h2all, h2mem⟩ := sessionMaxTs_spec (e₂ :: t₂) e₂.timestamp
      have h1in : sessionMaxTs (e₁ :: t₁) e₁.timestamp
          ∈ (e₁ :: t₁).map (fun e => e.timestamp) := by
        rcases h1mem with h | h
        · rw [h, List.map_cons]; exact List.mem_cons.mpr (Or.inl rfl)
        · exact h
      have h2in : sessionMaxTs (e₂ :: t₂) e₂.timestamp
          ∈ (e₂ :: t₂).map (fun e => e.timestamp) := by
        rcases h2mem with h | h
        · rw [h, List.map_cons]; exact List.mem_cons.mpr (Or.inl rfl)
        · exact h
      have hmp := hp.map (fun e => e.timestamp)
      apply le_antisymm
      · obtain ⟨x, hx, hxe⟩ := List.mem_map.mp (hmp.mem_iff.mp h1in)
        rw [show (((e₁ :: t₁).head?).map (fun e => e.timestamp)).getD 0 = e₁.timestamp
          from rfl, show (((e₂ :: t₂).head?).map (fun e => e.timestamp)).getD 0 = e₂.timestamp
          from rfl]
        rw [← hxe]
        exact h2all x hx
      · obtain ⟨x, hx, hxe⟩ := List.mem_map.mp (hmp.mem_iff.mpr h2in)
        rw [show (((e₁ :: t₁).head?).map (fun e => e.timestamp)).getD 0 = e₁.timestamp
          from rfl, show (((e₂ :: t₂).head?).map (fun e => e.timestamp)).getD 0 = e₂.timestamp
          from rfl]
        rw [← hxe]
        exact h1all x hx

theorem mkDailySummary_perm (k : Int) {g₁ g₂ : List UsageEntry} (hp : List.Perm g₁ g₂) :
    mkDailySummary k g₁ = mkDailySummary k g₂ := by
  unfold mkDailySummary
  rw [sumTokens_perm hp, sumCost_perm hp, hp.length_eq]

theorem mkSessionSummary_perm (key : String × String) {g₁ g₂ : List UsageEntry}
    (hp : List.Perm g₁ g₂) :
    mkSessionSummary key g₁ = mkSessionSummary key g₂ := by
  unfold mkSessionSummary
  dsimp only
  rw [sumTokens_perm hp, sumCost_perm hp, hp.length_eq,
    sessionMinTs_head_perm hp, sessionMaxTs_head_perm hp]

theorem mkProjectSummary_perm (p : String) (tc : ℚ) {g₁ g₂ : List UsageEntry}
    (hp : List.Perm g₁ g₂) :
    mkProjectSummary p g₁ tc = mkProjectSummary p g₂ tc := by
  unfold mkProjectSummary
  rw [sumTokens_perm hp, sumCost_perm hp,
    (perm_dedupFirst (hp.map (fun e => e.session))).length_eq]

/-- Strict-or-equal variant of the date-descending order, antisymmetric, used
to show two sorted date-distinct daily series that are permutations coincide. -/
def dailyStrictGE (a b : DailySummary) : Prop := b.date < a.date ∨ a = b

instance : IsAntisymm DailySummary dailyStrictGE := by
  refine ⟨?_⟩
  rintro a b (h1 | h1) (h2 | h2)
  · exact absurd h2 (lt_asymm h1)
  · exact h2.symm
  · exact h1
  · exact h1

theorem sorted_daily_nodup_eq {u v : List DailySummary} (hp : List.Perm u v)
    (hu : List.Sorted dailyDateGE u) (hv : List.Sorted dailyDateGE v)
    (hnu : (u.map (fun d => d.date)).Nodup) (hnv : (v.map (fun d => d.date)).Nodup) :
    u = v := by
  have hstrict : ∀ (w : List DailySummary), List.Sorted dailyDateGE w →
      (w.map (fun d => d.date)).Nodup → List.Sorted dailyStrictGE w := by
    intro w hw hnw
    have hpair : w.Pairwise (fun a b => ¬ a.date = b.date) := List.pairwise_map.mp hnw
    exact (hw.and hpair).imp (fun h => Or.inl (lt_of_le_of_ne h.1 (Ne.symm h.2)))
  exact List.eq_of_perm_of_sorted hp (hstrict u hu hnu) (hstrict v hv hnv)

theorem calculateDailySummary_eq (l : List UsageEntry) :
    calculateDailySummary l
      = applyPercentChanges
          (((dedupFirst (l.map (fun e => formatDate e.timestamp))).map
              (fun k => mkDailySummary k
                (l.filter (fun x => formatDate x.timestamp = k)))).insertionSort
            dailyDateGE) := by
  unfold calculateDailySummary
  dsimp only
  rw [groupByKey_eq, List.map_map]
  rfl

theorem calculateSessionSummary_eq (l : List UsageEntry) :
    calculateSessionSummary l
      = ((dedupFirst (l.map (fun e => (e.project, e.session)))).map
          (fun k => mkSessionSummary k
            (l.filter (fun x => (x.project, x.session) = k)))).insertionSort
          sessionCostGE := by
  unfold calculateSessionSummary
  dsimp only
  rw [groupByKey_eq, List.map_map]
  rfl

theorem calculateProjectSummary_eq (l : List UsageEntry) :
    calculateProjectSummary l
      = ((dedupFirst (l.map projKey)).map
          (fun k => mkProjectSummary k (l.filter (fun x => projKey x = k))
            (sumCost l))).insertionSort projectCostGE := by
  unfold calculateProjectSummary
  dsimp only
  rw [groupByKey_eq, List.map_map]
  rfl

/-- C8 counterexample.  Two events with equal cost in different projects:
swapping them swaps the output order of the project aggregation, because the
stable cost-descending sort keeps equal-cost groups in first-appearance
order.  So a permutation of the input does not return the same result list. -/
theorem projectSummary_order_counterexample :
    (calculateProjectSummary
        [⟨0, ⟨0, 0, 0, 0⟩, 1, "a", "s"⟩, ⟨0, ⟨0, 0, 0, 0⟩, 1, "b", "t"⟩]).map
        (fun p => p.project) = ["a", "b"] ∧
    (calculateProjectSummary
        [⟨0, ⟨0, 0, 0, 0⟩, 1, "b", "t"⟩, ⟨0, ⟨0, 0, 0, 0⟩, 1, "a", "s"⟩]).map
        (fun p => p.project) = ["b", "a"] ∧
    List.Perm
      [(⟨0, ⟨0, 0, 0, 0⟩, 1, "a", "s"⟩ : UsageEntry), ⟨0, ⟨0, 0, 0, 0⟩, 1, "b", "t"⟩]
      [⟨0, ⟨0, 0, 0, 0⟩, 1, "b", "t"⟩, ⟨0, ⟨0, 0, 0, 0⟩, 1, "a", "s"⟩] := by
  refine ⟨?_, ?_, List.Perm.swap _ _ _⟩
  · norm_num [calculateProjectSummary, groupByKey, insertGroup, mkProjectSummary,
      projKey, sumTokens, sumCost, zeroTokens, addEntryTokens, dedupFirst,
      projectCostGE, List.insertionSort, List.orderedInsert,
      (by decide : ¬ ("a" = "")), (by decide : ¬ ("b" = ""))]
  · norm_num [calculateProjectSummary, groupByKey, insertGroup, mkProjectSummary,
      projKey, sumTokens, sumCost, zeroTokens, addEntryTokens, dedupFirst,
      projectCostGE, List.insertionSort, List.orderedInsert,
      (by decide : ¬ ("a" = "")), (by decide : ¬ ("b" = ""))]

/-- C8 amended.  Over permutations of the event list, the daily aggregation
returns the identical summary list, and the session-by-project and project
aggregations return the same summaries up to a permutation of the output
list (each summary itself is order-insensitive; only the relative order of
equal-cost groups in the stable sort can differ). -/
theorem bucketing_perm_spec (l₁ l₂ : List UsageEntry) (hp : List.Perm l₁ l₂) :
    calculateDailySummary l₁ = calculateDailySummary l₂ ∧
    List.Perm (calculateSessionSummary l₁) (calculateSessionSummary l₂) ∧
    List.Perm (calculateProjectSummary l₁) (calculateProjectSummary l₂) := by
  refine ⟨?_, ?_, ?_⟩
  · rw [calculateDailySummary_eq, calculateDailySummary_eq]
    have hF : (fun k => mkDailySummary k
          (l₁.filter (fun x => formatDate x.timestamp = k)))
        = fun k => mkDailySummary k (l₂.filter (fun x => formatDate x.timestamp = k)) :=
      funext fun k => mkDailySummary_perm k (hp.filter _)
    have hkeys := perm_dedupFirst (hp.map (fun e => formatDate e.timestamp))
    have hpre : List.Perm
        ((dedupFirst (l₁.map (fun e => formatDate e.timestamp))).map
          (fun k => mkDailySummary k (l₁.filter (fun x => formatDate x.timestamp = k))))
        ((dedupFirst (l₂.map (fun e => formatDate e.timestamp))).map
          (fun k => mkDailySummary k (l₂.filter (fun x => formatDate x.timestamp = k)))) := by
      rw [hF]
      exact hkeys.map _
    have hsortperm : List.Perm
        (((dedupFirst (l₁.map (fun e => formatDate e.timestamp))).map
          (fun k => mkDailySummary k
            (l₁.filter (fun x => formatDate x.timestamp = k)))).insertionSort dailyDateGE)
        (((dedupFirst (l₂.map (fun e => formatDate e.timestamp))).map
          (fun k => mkDailySummary k
            (l₂.filter (fun x => formatDate x.timestamp = k)))).insertionSort dailyDateGE) :=
      (List.perm_insertionSort _ _).trans (hpre.trans (List.perm_insertionSort _ _).symm)
    have hdates : ∀ (l : List UsageEntry),
        ((((dedupFirst (l.map (fun e => formatDate e.timestamp))).map
          (fun k => mkDailySummary k
            (l.filter (fun x => formatDate x.timestamp = k)))).insertionSort
              dailyDateGE).map (fun d => d.date)).Nodup := by
      intro l
      have hperm := ((List.perm_insertionSort dailyDateGE
        ((dedupFirst (l.map (fun e => formatDate e.timestamp))).map
          (fun k => mkDailySummary k
            (l.filter (fun x => formatDate x.timestamp = k))))).map (fun d => d.date))
      refine hperm.nodup_iff.mpr ?_
      rw [List.map_map]
      have : ((fun d : DailySummary => d.date) ∘ fun k => mkDailySummary k
          (l.filter (fun x => formatDate x.timestamp = k))) = id := rfl
      rw [this, List.map_id]
      exact dedupFirst_nodup _
    have := sorted_daily_nodup_eq hsortperm
      (List.sorted_insertionSort dailyDateGE _) (List.sorted_insertionSort dailyDateGE _)
      (hdates l₁) (hdates l₂)
    rw [this]
  · rw [calculateSessionSummary_eq, calculateSessionSummary_eq]
    have hF : (fun k => mkSessionSummary k
          (l₁.filter (fun x => (x.project, x.session) = k)))
        = fun k => mkSessionSummary k (l₂.filter (fun x => (x.project, x.session) = k)) :=
      funext fun k => mkSessionSummary_perm k (hp.filter _)
    have hkeys := perm_dedupFirst (hp.map (fun e => (e.project, e.session)))
    have hpre : List.Perm
        ((dedupFirst (l₁.map (fun e => (e.project, e.session)))).map
          (fun k => mkSessionSummary k (l₁.filter (fun x => (x.project, x.session) = k))))
        ((dedupFirst (l₂.map (fun e => (e.project, e.session)))).map
          (fun k => mkSessionSummary k (l₂.filter (fun x => (x.project, x.session) = k)))) := by
      rw [hF]
      exact hkeys.map _
    exact (List.perm_insertionSort _ _).trans (hpre.trans (List.perm_insertionSort _ _).symm)
  · rw [calculateProjectSummary_eq, calculateProjectSummary_eq]
    have hF : (fun k => mkProjectSummary k (l₁.filter (fun x => projKey x = k)) (sumCost l₁))
        = fun k => mkProjectSummary k (l₂.filter (fun x => projKey x = k)) (sumCost l₂) := by
      refine funext fun k => ?_
      rw [sumCost_perm hp]
      exact mkProjectSummary_perm k _ (hp.filter _)
    have hkeys := perm_dedupFirst (hp.map projKey)
    have hpre : List.Perm
        ((dedupFirst (l₁.map projKey)).map
          (fun k => mkProjectSummary k (l₁.filter (fun x => projKey x = k)) (sumCost l₁)))
        ((dedupFirst (l₂.map projKey)).map
          (fun k => mkProjectSummary k (l₂.filter (fun x => projKey x = k)) (sumCost l₂))) := by
      rw [hF]
      exact hkeys.map _
    exact (List.perm_insertionSort _ _).trans (hpre.trans (List.perm_insertionSort _ _).symm)

/-- C8 witness: the amended statement applied to the two-entry swap of the
counterexample. -/
theorem bucketing_perm_spec_witness :
    List.Perm
      (calculateProjectSummary
        [⟨0, ⟨0, 0, 0, 0⟩, 1, "a", "s"⟩, ⟨0, ⟨0, 0, 0, 0⟩, 1, "b", "t"⟩])
      (calculateProjectSummary
        [⟨0, ⟨0, 0, 0, 0⟩, 1, "b", "t"⟩, ⟨0, ⟨0, 0, 0, 0⟩, 1, "a", "s"⟩]) :=
  (bucketing_perm_spec
    [⟨0, ⟨0, 0, 0, 0⟩, 1, "a", "s"⟩, ⟨0, ⟨0, 0, 0, 0⟩, 1, "b", "t"⟩]
    [⟨0, ⟨0, 0, 0, 0⟩, 1, "b", "t"⟩, ⟨0, ⟨0, 0, 0, 0⟩, 1, "a", "s"⟩]
    (List.Perm.swap _ _ _)).2.2

/-! ### Update-queue and ingestion-cache invariants -/


theorem queueStep_no_new_batch (s s' : QueueState) (hst : QueueStep s s')
    (hproc : s.isProcessing = true) :
    (s'.inFlight = s.inFlight ∧ s'.processed = s.processed) ∨
    (s'.inFlight = [] ∧ s'.processed = s.processed ++ [s.inFlight]) := by
  cases hst with
  | notify e => exact Or.inl ⟨rfl, rfl⟩
  | beginBatch hfalse _ => rw [hproc] at hfalse; cases hfalse
  | finishBatch _ => exact Or.inr ⟨rfl, rfl⟩

/-- C9.  In every reachable state of the update queue, at most one batch is
in flight (`inFlight` is empty whenever the processing flag is down, and no
step started from a processing state begins a new batch — it either leaves
the in-flight batch untouched or completes exactly it), and every
notification ever arrived is accounted for exactly once, in order, among the
processed batches, the in-flight batch and the pending queue — notifications
are deferred, never dropped, and leave the queue only inside a batch. -/
theorem updateQueue_safety (s : QueueState) (hr : QueueReachable s) :
    (s.isProcessing = false → s.inFlight = []) ∧
    s.arrived = s.processed.flatten ++ s.inFlight ++ s.updateQueue ∧
    (∀ s', QueueStep s s' → s.isProcessing = true →
      (s'.inFlight = s.inFlight ∧ s'.processed = s.processed) ∨
      (s'.inFlight = [] ∧ s'.processed = s.processed ++ [s.inFlight])) := by
  induction hr with
  | init => exact ⟨fun _ => rfl, rfl, fun s' hst hproc => by cases hproc⟩
  | step hprev hstep ih =>
    rename_i s₀ s₁
    refine ⟨?_, ?_, fun s' hst hproc => queueStep_no_new_batch _ s' hst hproc⟩
    · cases hstep with
      | notify e =>
        intro h
        exact ih.1 h
      | beginBatch hfalse hne =>
        intro h
        cases h
      | finishBatch hproc =>
        intro _
        rfl
    · cases hstep with
      | notify e =>
        show s₀.arrived ++ [e]
          = s₀.processed.flatten ++ s₀.inFlight ++ (s₀.updateQueue ++ [e])
        rw [ih.2.1]
        simp [List.append_assoc]
      | beginBatch hfalse hne =>
        show s₀.arrived = s₀.processed.flatten ++ s₀.updateQueue ++ []
        rw [ih.2.1, ih.1 hfalse]
        simp
      | finishBatch hproc =>
        show s₀.arrived = (s₀.processed ++ [s₀.inFlight]).flatten ++ [] ++ s₀.updateQueue
        rw [ih.2.1]
        simp [List.flatten_append]

/-- C9 witness: the invariant applied to the reachable state after one
notification has arrived. -/
theorem updateQueue_safety_witness :
    ([⟨FileChangeKind.add, "f", 0⟩] : List FileChangeEvent)
      = ([] : List (List FileChangeEvent)).flatten ++ [] ++ [⟨FileChangeKind.add, "f", 0⟩] :=
  (updateQueue_safety
    ⟨[⟨FileChangeKind.add, "f", 0⟩], false, [], [], [⟨FileChangeKind.add, "f", 0⟩]⟩
    (QueueReachable.step QueueReachable.init
      (QueueStep.notify initQueueState ⟨FileChangeKind.add, "f", 0⟩))).2.1

theorem cacheSet_inv (c : Cache) (k : String) (v : List UsageEntry)
    (hc : ∀ kv ∈ c, kv.2 ≠ []) (hv : v ≠ []) :
    ∀ kv ∈ cacheSet c k v, kv.2 ≠ [] := by
  induction c with
  | nil =>
    intro kv hkv
    simp only [cacheSet, List.mem_singleton] at hkv
    rw [hkv]
    exact hv
  | cons g rest ih =>
    rcases g with ⟨k', v'⟩
    intro kv hkv
    by_cases hk : k' = k
    · rw [show cacheSet ((k', v') :: rest) k v = (k, v) :: rest by
        simp [cacheSet, hk]] at hkv
      rcases List.mem_cons.mp hkv with h | h
      · rw [h]; exact hv
      · exact hc kv (List.mem_cons.mpr (Or.inr h))
    · rw [show cacheSet ((k', v') :: rest) k v = (k', v') :: cacheSet rest k v by
        simp [cacheSet, hk]] at hkv
      rcases List.mem_cons.mp hkv with h | h
      · rw [h]; exact hc _ (List.mem_cons.mpr (Or.inl rfl))
      · exact ih (fun kv hkv => hc kv (List.mem_cons.mpr (Or.inr hkv))) kv h

theorem cacheDelete_inv (c : Cache) (k : String)
    (hc : ∀ kv ∈ c, kv.2 ≠ []) :
    ∀ kv ∈ cacheDelete c k, kv.2 ≠ [] := by
  induction c with
  | nil => intro kv hkv; cases hkv
  | cons g rest ih =>
    rcases g with ⟨k', v'⟩
    intro kv hkv
    by_cases hk : k' = k
    · rw [show cacheDelete ((k', v') :: rest) k = rest by simp [cacheDelete, hk]] at hkv
      exact hc kv (List.mem_cons.mpr (Or.inr hkv))
    · rw [show cacheDelete ((k', v') :: rest) k = (k', v') :: cacheDelete rest k by
        simp [cacheDelete, hk]] at hkv
      rcases List.mem_cons.mp hkv with h | h
      · rw [h]; exact hc _ (List.mem_cons.mpr (Or.inl rfl))
      · exact ih (fun kv hkv => hc kv (List.mem_cons.mpr (Or.inr hkv))) kv h

theorem applyUpdate_inv (c : Cache) (u : FileUpdate)
    (hc : ∀ kv ∈ c, kv.2 ≠ []) :
    ∀ kv ∈ applyUpdate c u, kv.2 ≠ [] := by
  cases u with
  | unlink path => exact cacheDelete_inv c path hc
  | reparse path outcome =>
    cases outcome with
    | ok entries =>
      by_cases hlen : 0 < entries.length
      · rw [show applyUpdate c (FileUpdate.reparse path (Except.ok entries))
            = cacheSet c path entries by simp [applyUpdate, hlen]]
        refine cacheSet_inv c path entries hc ?_
        intro hnil
        rw [hnil] at hlen
        cases hlen
      · rw [show applyUpdate c (FileUpdate.reparse path (Except.ok entries))
            = cacheDelete c path by simp [applyUpdate, hlen]]
        exact cacheDelete_inv c path hc
    | error e => exact cacheDelete_inv c path hc

theorem processBatch_inv (updates : List FileUpdate) :
    ∀ (c : Cache), (∀ kv ∈ c, kv.2 ≠ []) →
      ∀ kv ∈ processBatch c updates, kv.2 ≠ [] := by
  induction updates with
  | nil => intro c hc; exact hc
  | cons u rest ih =>
    intro c hc
    show ∀ kv ∈ processBatch (applyUpdate c u) rest, kv.2 ≠ []
    exact ih _ (applyUpdate_inv c u hc)

theorem loadFileStep_inv (c : Cache) (file : String × ParseOutcome)
    (hc : ∀ kv ∈ c, kv.2 ≠ []) :
    ∀ kv ∈ loadFileStep c file, kv.2 ≠ [] := by
  rcases file with ⟨path, outcome⟩
  cases outcome with
  | ok entries =>
    by_cases hlen : 0 < entries.length
    · rw [show loadFileStep c (path, Except.ok entries) = cacheSet c path entries by
        simp [loadFileStep, hlen]]
      refine cacheSet_inv c path entries hc ?_
      intro hnil
      rw [hnil] at hlen
      cases hlen
    · rw [show loadFileStep c (path, Except.ok entries) = c by simp [loadFileStep, hlen]]
      exact hc
  | error e =>
    rw [show loadFileStep c (path, Except.error e) = c by simp [loadFileStep]]
    exact hc

/-- C10.  The ingestion cache never maps a file to an empty event list: the
initial bulk load stores only non-empty parse results, and applying any
add/change/unlink batch to a cache satisfying the invariant preserves it —
a file whose re-parse yields zero events or throws has no cache entry. -/
theorem cache_nonempty_invariant :
    (∀ (files : List (String × ParseOutcome)), ∀ kv ∈ loadAllData files, kv.2 ≠ []) ∧
    (∀ (c : Cache) (updates : List FileUpdate), (∀ kv ∈ c, kv.2 ≠ []) →
      ∀ kv ∈ processBatch c updates, kv.2 ≠ []) := by
  constructor
  · intro files
    have : ∀ (fs : List (String × ParseOutcome)) (c : Cache), (∀ kv ∈ c, kv.2 ≠ []) →
        ∀ kv ∈ fs.foldl loadFileStep c, kv.2 ≠ [] := by
      intro fs
      induction fs with
      | nil => intro c hc; exact hc
      | cons f rest ih =>
        intro c hc
        show ∀ kv ∈ rest.foldl loadFileStep (loadFileStep c f), kv.2 ≠ []
        exact ih _ (loadFileStep_inv c f hc)
    exact this files [] (by intro kv hkv; cases hkv)
  · intro c updates hc
    exact processBatch_inv updates c hc

/-- C10 witness: one file parsing to one entry is stored with that non-empty
list. -/
theorem cache_nonempty_invariant_witness :
    (("f", [(⟨0, ⟨0, 0, 0, 0⟩, 1, "p", "s"⟩ : UsageEntry)]) :
        String × List UsageEntry).2 ≠ [] :=
  cache_nonempty_invariant.1
    [("f", Except.ok [⟨0, ⟨0, 0, 0, 0⟩, 1, "p", "s"⟩])]
    ("f", [⟨0, ⟨0, 0, 0, 0⟩, 1, "p", "s"⟩])
    (by decide)
